import Mathlib

set_option maxRecDepth 8000

/-!
Verification of the maglev consistent-hashing package (`maglev.go`).

The embedding below is a direct shallow translation of the Go source.
Machine integers (`uint64`) are modelled as `Nat` with an explicit
`% 2^64` at the one place overflow can occur (the permutation formula
`offset + i*skip`), and Go's `int(...)` conversion is modelled as a
64-bit signed wrap.  Panics (index out of range, table population on an
empty node set, cursor overrun) are modelled by `Option`: `none` means
the Go code panics.  Go's `map[string][]uint64` is modelled as an
association list with first-match lookup; a missing key yields the zero
value `[]` (a nil slice), whose indexing panics, as in Go.
-/

namespace Maglev

abbrev Node := String

/-- The modulus of Go `uint64` arithmetic, `2^64`. -/
def U64 : Nat := 2 ^ 64

/-- Lexicographic order on character lists by unicode scalar value.  For
valid UTF-8, Go's byte-wise string comparison and the scalar-value
comparison order strings identically (UTF-8 preserves codepoint order). -/
def lexLt : List Char → List Char → Bool
  | [], [] => false
  | [], _ :: _ => true
  | _ :: _, [] => false
  | a :: as, b :: bs =>
    if a.toNat < b.toNat then true
    else if b.toNat < a.toNat then false
    else lexLt as bs

/-- Go `s < t` on strings. -/
def strLt (s t : Node) : Bool := lexLt s.data t.data

/-- Go `s <= t` on strings. -/
def strLe (s t : Node) : Bool := ! strLt t s

/-- The `Maglev` struct.  The two hashers `h1 h2 : Node → Nat` stand for the
`Hasher` interface (a deterministic function from strings to `uint64`). -/
structure M where
  permutations : List (Node × List Nat)
  lookup : List Node
  nodes : List Node
  numPartitions : Nat
  h1 : Node → Nat
  h2 : Node → Nat

/-- Go map indexing `m.permutations[ID]`: first entry with the key, else the
zero value (nil slice, modelled as `[]`). -/
def mapGet (perms : List (Node × List Nat)) (k : Node) : List Nat :=
  match perms.find? (fun e => e.1 = k) with
  | some e => e.2
  | none => []

/-- Go map assignment `m.permutations[k] = v`. -/
def mapSet (perms : List (Node × List Nat)) (k : Node) (v : List Nat) :
    List (Node × List Nat) :=
  match perms with
  | [] => [(k, v)]
  | e :: rest => if e.1 = k then (k, v) :: rest else e :: mapSet rest k v

/-- Go `delete(m.permutations, k)`. -/
def mapDel (perms : List (Node × List Nat)) (k : Node) : List (Node × List Nat) :=
  perms.filter (fun e => ¬ e.1 = k)

/-- Model of `generatePermutationsForNode`:
`offset := m.h1.Hash(node) % m.numPartitions`,
`skip := m.h2.Hash(node)%(m.numPartitions-1) + 1`,
`permutation[i] = (offset + i*skip) % m.numPartitions`.
Hash outputs are `uint64` values (`% U64`); the sum `offset + i*skip` is
computed in `uint64` arithmetic, hence the explicit `% U64`. -/
def generatePermutationsForNode (m : M) (node : Node) : List Nat :=
  let offset := m.h1 node % U64 % m.numPartitions
  let skip := m.h2 node % U64 % (m.numPartitions - 1) + 1
  (List.range m.numPartitions).map fun i => (offset + i * skip) % U64 % m.numPartitions

/-- Model of `generatePermutations`: a fresh map holding every current member permutation. -/
def generatePermutations (m : M) : M :=
  { m with permutations := m.nodes.map fun node => (node, generatePermutationsForNode m node) }

/-- The inner scan of `populateLookup`:
`c := m.permutations[ID][next[i]]; for m.lookup[c] != "" { next[i]++; c = ... }`.
It walks the permutation from the cursor position to the first partition whose
table slot is still the empty-string sentinel, and returns that partition
together with the cursor that reached it; running past the end of the
permutation is the Go index-out-of-range panic (`none`).  Structured over
`perm.drop cursor` so that it stays structurally recursive. -/
def scanAux (lookup : List Node) : List Nat → Nat → Option (Nat × Nat)
  | [], _ => none
  | c :: restPerm, cursor =>
    if lookup.getD c "" ≠ "" then scanAux lookup restPerm (cursor + 1)
    else some (c, cursor)

def scanSlot (perm : List Nat) (lookup : List Node) (cursor : Nat) : Option (Nat × Nat) :=
  scanAux lookup (perm.drop cursor) cursor

/-- One sweep of the inner `for i, ID := range m.nodes` loop of
`populateLookup`, threading the table, the per-node cursors and the filled
counter `n`; the `Bool` records whether `n == numPartitions` fired.  The
per-node cursor array `next` is carried as a `(node, cursor)` pair list. -/
def passStep (p : Nat) (perms : Node → List Nat) :
    List (Node × Nat) → List Node → Nat → Option (List (Node × Nat) × List Node × Nat × Bool)
  | [], lookup, n => some ([], lookup, n, false)
  | (node, cur) :: rest, lookup, n =>
    match scanSlot (perms node) lookup cur with
    | none => none
    | some (c, cur1) =>
      let lookup1 := lookup.set c node
      if n + 1 = p then some ((node, cur1 + 1) :: rest, lookup1, n + 1, true)
      else
        match passStep p perms rest lookup1 (n + 1) with
        | none => none
        | some (pairs2, lookup2, n2, done) =>
          some ((node, cur1 + 1) :: pairs2, lookup2, n2, done)

/-- The outer `for { ... }` loop of `populateLookup`.  The loop body strictly
increases `n` whenever the pair list is non-empty, so `numPartitions + 1`
rounds of fuel always suffice; fuel exhaustion (like a panic) is `none`. -/
def populateLoop (p : Nat) (perms : Node → List Nat) :
    Nat → List (Node × Nat) → List Node → Nat → Option (List Node)
  | 0, _, _, _ => none
  | fuel + 1, pairs, lookup, n =>
    match passStep p perms pairs lookup n with
    | none => none
    | some (pairs1, lookup1, n1, done) =>
      if done then some lookup1 else populateLoop p perms fuel pairs1 lookup1 n1

/-- Model of `populateLookup`: `N == 0` panics; otherwise the table starts as
`make([]string, numPartitions)` (all slots the empty string), all cursors
start at `0`, and the round-robin fill runs until `n == numPartitions`. -/
def populateLookup (m : M) : Option (List Node) :=
  if m.nodes.length = 0 then none
  else
    populateLoop m.numPartitions (mapGet m.permutations) (m.numPartitions + 1)
      (m.nodes.map fun node => (node, 0))
      (List.replicate m.numPartitions "") 0

/-- Go `int(v)` of a `uint64` value on a 64-bit platform: two's-complement
wrap of values at or above `2^63`. -/
def goInt (v : Nat) : Int :=
  if v < 2 ^ 63 then (v : Int) else (v : Int) - (U64 : Int)

/-- Model of `PartitionID`: `int(key % uint64(m.numPartitions))`. -/
def PartitionID (m : M) (key : Nat) : Int :=
  goInt (key % m.numPartitions)

/-- Model of `Lookup`: `m.lookup[m.PartitionID(key)]`; a negative or out-of-range
index is a panic. -/
def Lookup (m : M) (key : Nat) : Option Node :=
  let pid := PartitionID m key
  if pid < 0 then none else m.lookup[pid.toNat]?

/-- The loop of Go `sort.Search`:
`i, j := 0, n; for i < j { h := (i+j)/2; if !f(h) { i = h+1 } else { j = h } }`.
The interval shrinks at every iteration, so fuel `j - i` is always enough;
when the fuel runs out we have `i ≥ j` and the loop answer is `i`. -/
def searchLoop (f : Nat → Bool) : Nat → Nat → Nat → Nat
  | 0, i, _ => i
  | fuel + 1, i, j =>
    if i < j then
      if ¬ f ((i + j) / 2) then searchLoop f fuel ((i + j) / 2 + 1) j
      else searchLoop f fuel i ((i + j) / 2)
    else i

/-- Model of `sort.SearchStrings(a, x)`: smallest index `h` with `a[h] >= x` (for a
sorted slice), or `len(a)`.  Only indices `h < len a` are ever probed. -/
def SearchStrings (a : List Node) (x : Node) : Nat :=
  searchLoop (fun h => strLe x (a.getD h "")) a.length 0 a.length

/-- Model of `Contains`: `pos := sort.SearchStrings(m.nodes, node); m.nodes[pos] == node`.
Reading `m.nodes[pos]` with `pos == len(m.nodes)` is an index-out-of-range
panic (`none`). -/
def Contains (m : M) (node : Node) : Option Bool :=
  match m.nodes[SearchStrings m.nodes node]? with
  | none => none
  | some v => some (v = node)

/-- The per-candidate loop of `Add`: probe, and when absent insert at the
probe position and cache the fresh permutation. -/
def addLoop (m : M) : List Node → Nat → Option (M × Nat)
  | [], n => some (m, n)
  | node :: rest, n =>
    match m.nodes[SearchStrings m.nodes node]? with
    | none => none
    | some v =>
      if v ≠ node then
        addLoop
          { m with
            nodes := m.nodes.insertIdx (SearchStrings m.nodes node) node,
            permutations := mapSet m.permutations node (generatePermutationsForNode m node) }
          rest (n + 1)
      else addLoop m rest n

/-- Model of `Add`: mutate and rebuild first, then report the capacity error when the
node count exceeds `numPartitions`. -/
def Add (m : M) (nodes : List Node) : Option (M × Nat × Option String) :=
  match addLoop m nodes 0 with
  | none => none
  | some (m1, n) =>
    match populateLookup m1 with
    | none => none
    | some lk =>
      let m2 := { m1 with lookup := lk }
      if m2.nodes.length > m2.numPartitions then
        some (m2, n, some "number of nodes exceed number of partitions")
      else some (m2, n, none)

/-- The per-candidate loop of `Remove`: probe, and when present erase the
node and drop its cached permutation. -/
def removeLoop (m : M) : List Node → Nat → Option (M × Nat)
  | [], n => some (m, n)
  | node :: rest, n =>
    match m.nodes[SearchStrings m.nodes node]? with
    | none => none
    | some v =>
      if v = node then
        removeLoop
          { m with
            nodes := m.nodes.eraseIdx (SearchStrings m.nodes node),
            permutations := mapDel m.permutations node }
          rest (n + 1)
      else removeLoop m rest n

/-- Model of `Remove`: when the count would drop to zero, report the error and leave
the stale table in place; otherwise rebuild. -/
def Remove (m : M) (nodes : List Node) : Option (M × Nat × Option String) :=
  match removeLoop m nodes 0 with
  | none => none
  | some (m1, n) =>
    if m1.nodes.length = 0 then some (m1, n, some "there are no nodes left")
    else
      match populateLookup m1 with
      | none => none
      | some lk => some ({ m1 with lookup := lk }, n, none)

/-- Model of `Size`: `len(m.nodes)`. -/
def Size (m : M) : Nat := m.nodes.length

/-- Model of `Partitions`: `m.numPartitions`. -/
def Partitions (m : M) : Nat := m.numPartitions

/-- Insertion step of `sortStrings`. -/
def insertSorted (x : Node) : List Node → List Node
  | [] => [x]
  | y :: ys => if strLe x y then x :: y :: ys else y :: insertSorted x ys

/-- Model of `sort.Strings`: the sorted rearrangement of the slice (Go's sort is
extensionally the insertion sort on strings: same multiset, sorted; equal
strings are indistinguishable, so stability does not matter). -/
def sortStrings : List Node → List Node
  | [] => []
  | x :: xs => insertSorted x (sortStrings xs)

/-- Model of `NewMaglev`.  The Go `ProbablyPrime(0)` test is 100% accurate below `2^64`,
i.e. exactly `Nat.Prime` on the `uint64` argument.  A panic while building
the initial table is `none`; otherwise the constructor returns the error or
the instance. -/
def NewMaglev (nodes : List Node) (numPartitions : Nat) (h1 h2 : Node → Nat) :
    Option (Except String M) :=
  if Nat.Prime numPartitions then
    let m : M :=
      { permutations := [], lookup := [], nodes := sortStrings nodes,
        numPartitions := numPartitions, h1 := h1, h2 := h2 }
    if 0 < nodes.length then
      let m1 := generatePermutations m
      match populateLookup m1 with
      | none => none
      | some lk => some (Except.ok { m1 with lookup := lk })
    else some (Except.ok m)
  else some (Except.error "number of partitions must be prime")

/-- Reachable-state invariant for the permutation cache: every current
member's cached permutation is the one `generatePermutationsForNode`
computes (construction establishes it and every membership change
maintains it). -/
def PermsOK (m : M) : Prop :=
  ∀ node ∈ m.nodes, mapGet m.permutations node = generatePermutationsForNode m node

/-! ### Concrete instances used by witnesses and counterexamples -/

/-- A constant hasher (a legal `Hasher`: deterministic string → uint64). -/
def hash0 : Node → Nat := fun _ => 0

/-- The instance `NewMaglev(["a"], 3, hash0, hash0)` returns. -/
def mA : M :=
  { permutations := [("a", [0, 1, 2])], lookup := ["a", "a", "a"],
    nodes := ["a"], numPartitions := 3, h1 := hash0, h2 := hash0 }

/-- The state `Remove(mA, "a")` leaves behind (stale table, no nodes). -/
def mE : M :=
  { permutations := [], lookup := ["a", "a", "a"],
    nodes := [], numPartitions := 3, h1 := hash0, h2 := hash0 }

/-- The instance `NewMaglev(["a","b"], 3, hash0, hash0)` returns. -/
def mAB : M :=
  { permutations := [("a", [0, 1, 2]), ("b", [0, 1, 2])], lookup := ["a", "b", "a"],
    nodes := ["a", "b"], numPartitions := 3, h1 := hash0, h2 := hash0 }

/-- The (full) instance `NewMaglev(["a","b"], 2, hash0, hash0)` returns. -/
def mAB2 : M :=
  { permutations := [("a", [0, 1]), ("b", [0, 1])], lookup := ["a", "b"],
    nodes := ["a", "b"], numPartitions := 2, h1 := hash0, h2 := hash0 }

/-- The state `Add(mAB2, "aa")` leaves behind (3 nodes on 2 partitions). -/
def mAB2X : M :=
  { permutations := [("a", [0, 1]), ("b", [0, 1]), ("aa", [0, 1])],
    lookup := ["a", "aa"], nodes := ["a", "aa", "b"], numPartitions := 2,
    h1 := hash0, h2 := hash0 }

/-- A 64-bit prime above `2^63`: `10232178353385766913 = 71 * 2^57 + 1`
(certified below by the Lucas primality test). -/
def pBig : Nat := 10232178353385766913

/-- The instance `NewMaglev([], pBig, hash0, hash0)` returns: an empty node
list skips the table build, so even a huge partition count constructs. -/
def mBig : M :=
  { permutations := [], lookup := [], nodes := [],
    numPartitions := pBig, h1 := hash0, h2 := hash0 }

/-- Square-and-multiply modular exponentiation (proof infrastructure for
the primality certificate; computes `a ^ e % n` for `e < 2 ^ fuel`). -/
def modPow : Nat → Nat → Nat → Nat → Nat
  | 0, _, _, n => 1 % n
  | fuel + 1, a, e, n =>
    if e = 0 then 1 % n
    else if e % 2 = 1 then modPow fuel (a * a % n) (e / 2) n * a % n
    else modPow fuel (a * a % n) (e / 2) n

/-- The smallest prime above `2^32`: `4294967311 = 2^32 + 15` (certified
below by the Lucas primality test). -/
def p0 : Nat := 4294967311

/-- Hasher/partition-count bundle exercising the permutation generator at
the prime `p0 > 2^32`: `h1` hashes to 0, `h2` hashes to `p0 - 2`, so
`offset = 0` and `skip = p0 - 1`, and `i * skip` overflows `uint64`. -/
def mC2 : M :=
  { permutations := [], lookup := [], nodes := ["n"],
    numPartitions := p0, h1 := hash0, h2 := fun _ => 4294967309 }

/-- The instance `NewMaglev(["", "a"], 3, hash0, hash0)` returns: the empty
string is a member, and the built table has slots left at the sentinel. -/
def mZA : M :=
  { permutations := [("", [0, 1, 2]), ("a", [0, 1, 2])], lookup := ["a", "", ""],
    nodes := ["", "a"], numPartitions := 3, h1 := hash0, h2 := hash0 }

/-- The (full) instance `NewMaglev(["a","c"], 2, hash0, hash0)` returns. -/
def mCD : M :=
  { permutations := [("a", [0, 1]), ("c", [0, 1])], lookup := ["a", "c"],
    nodes := ["a", "c"], numPartitions := 2, h1 := hash0, h2 := hash0 }

/-- The state `Add(mCD, "b")` leaves behind (3 nodes on 2 partitions). -/
def mCDX : M :=
  { permutations := [("a", [0, 1]), ("c", [0, 1]), ("b", [0, 1])],
    lookup := ["a", "b"], nodes := ["a", "b", "c"], numPartitions := 2,
    h1 := hash0, h2 := hash0 }

/-- The state mutation `Add` performs for one absent candidate: insert at
the probe position and cache the fresh permutation (the struct addLoop
builds in its insertion branch). -/
def addOne (m : M) (x : Node) : M :=
  { m with
    nodes := m.nodes.insertIdx (SearchStrings m.nodes x) x,
    permutations := mapSet m.permutations x (generatePermutationsForNode m x) }

/-- Number of table slots still holding the empty-string sentinel among a
segment of a permutation (proof infrastructure for the termination of the
table builder). -/
def emptyCount (L : List Node) (l : List Nat) : Nat :=
  l.countP fun c => decide (L.getD c "" = "")

/-! ### The string order -/

theorem lexLt_irrefl : ∀ as : List Char, lexLt as as = false := by
  intro as
  induction as with
  | nil => rfl
  | cons a as ih => simp [lexLt, ih]

theorem lexLt_trans : ∀ as bs cs : List Char,
    lexLt as bs = true → lexLt bs cs = true → lexLt as cs = true := by
  intro as
  induction as with
  | nil =>
    intro bs cs hab hbc
    cases bs with
    | nil => exact absurd hab (by simp [lexLt])
    | cons b bs =>
      cases cs with
      | nil => exact absurd hbc (by simp [lexLt])
      | cons c cs => simp [lexLt]
  | cons a as ih =>
    intro bs cs hab hbc
    cases bs with
    | nil => exact absurd hab (by simp [lexLt])
    | cons b bs =>
      cases cs with
      | nil => exact absurd hbc (by simp [lexLt])
      | cons c cs =>
        simp only [lexLt] at hab hbc ⊢
        split at hab
        · split at hbc
          · simp; omega
          · split at hbc
            · exact absurd hbc (by simp)
            · have : b.toNat = c.toNat := by omega
              simp; omega
        · split at hab
          · exact absurd hab (by simp)
          · have hab2 : a.toNat = b.toNat := by omega
            split at hbc
            · simp; omega
            · split at hbc
              · exact absurd hbc (by simp)
              · have hbc2 : b.toNat = c.toNat := by omega
                have h1 : ¬ a.toNat < c.toNat → ¬ c.toNat < a.toNat → lexLt as cs = true :=
                  fun _ _ => ih bs cs hab hbc
                split
                · rfl
                · split
                  · omega
                  · exact h1 (by omega) (by omega)

theorem lexLt_connex : ∀ as bs : List Char,
    lexLt as bs = false → lexLt bs as = false → as = bs := by
  intro as
  induction as with
  | nil =>
    intro bs hab _
    cases bs with
    | nil => rfl
    | cons b bs => exact absurd hab (by simp [lexLt])
  | cons a as ih =>
    intro bs hab hba
    cases bs with
    | nil => exact absurd hba (by simp [lexLt])
    | cons b bs =>
      simp only [lexLt] at hab hba
      by_cases h1 : a.toNat < b.toNat
      · rw [if_pos h1] at hab
        exact absurd hab (by simp)
      · by_cases h2 : b.toNat < a.toNat
        · rw [if_pos h2] at hba
          exact absurd hba (by simp)
        · rw [if_neg h1, if_neg h2] at hab
          rw [if_neg h2, if_neg h1] at hba
          have hn : a.toNat = b.toNat := by omega
          have hc : a = b := Char.ext (UInt32.ext hn)
          rw [hc, ih bs hab hba]

theorem strLt_irrefl (s : Node) : strLt s s = false := lexLt_irrefl s.data

theorem strLt_trans {s t u : Node} (h1 : strLt s t = true) (h2 : strLt t u = true) :
    strLt s u = true := lexLt_trans s.data t.data u.data h1 h2

theorem strLt_connex {s t : Node} (h1 : strLt s t = false) (h2 : strLt t s = false) :
    s = t :=
  String.ext (lexLt_connex s.data t.data h1 h2)

theorem strLt_asymm {s t : Node} (h : strLt s t = true) : strLt t s = false := by
  by_contra hc
  have h2 : strLt t s = true := by
    cases he : strLt t s
    · exact absurd he hc
    · rfl
  have := strLt_trans h h2
  rw [strLt_irrefl] at this
  exact absurd this (by simp)

/-! ### `sort.Search` specification -/

/-- The Go binary-search loop, run with enough fuel and a predicate that is
monotone below `n`, lands exactly on the boundary: everything strictly below
the answer is `false`, everything from the answer up to `n` is `true`. -/
theorem searchLoop_spec (f : Nat → Bool) (n : Nat)
    (hmono : ∀ a b, a ≤ b → b < n → f a = true → f b = true) :
    ∀ fuel i j, j ≤ n → i ≤ j → j - i ≤ fuel →
      (∀ h, h < i → f h = false) → (∀ h, j ≤ h → h < n → f h = true) →
      (∀ h, h < searchLoop f fuel i j → f h = false) ∧
      (∀ h, searchLoop f fuel i j ≤ h → h < n → f h = true) ∧
      i ≤ searchLoop f fuel i j ∧ searchLoop f fuel i j ≤ j := by
  intro fuel
  induction fuel with
  | zero =>
    intro i j hjn hij hfuel hbelow habove
    have : i = j := by omega
    subst this
    exact ⟨hbelow, fun h hh hn => habove h hh hn, le_refl i, le_refl i⟩
  | succ fuel ih =>
    intro i j hjn hij hfuel hbelow habove
    rw [searchLoop]
    by_cases hlt : i < j
    · rw [if_pos hlt]
      by_cases hf : f ((i + j) / 2) = true
      · rw [if_neg (not_not_intro hf)]
        have hmid : (i + j) / 2 < j := by omega
        have := ih i ((i + j) / 2) (by omega) (by omega) (by omega) hbelow
          (fun h hh hn => hmono ((i + j) / 2) h hh hn hf)
        exact ⟨this.1, this.2.1, this.2.2.1, le_trans this.2.2.2 (by omega)⟩
      · have hf2 : f ((i + j) / 2) = false := by
          cases he : f ((i + j) / 2)
          · rfl
          · exact absurd he hf
        rw [if_pos hf]
        have hbelow2 : ∀ h, h < (i + j) / 2 + 1 → f h = false := by
          intro h hh
          by_cases hhi : h < i
          · exact hbelow h hhi
          · cases he : f h
            · rfl
            · have := hmono h ((i + j) / 2) (by omega) (by omega) he
              rw [hf2] at this
              exact absurd this (by simp)
        have := ih ((i + j) / 2 + 1) j hjn (by omega) (by omega) hbelow2 habove
        exact ⟨this.1, this.2.1, le_trans (by omega) this.2.2.1, this.2.2.2⟩
    · rw [if_neg hlt]
      have : i = j := by omega
      subst this
      exact ⟨hbelow, fun h hh hn => habove h hh hn, le_refl i, le_refl i⟩

/-- Specification of `SearchStrings` on a strictly sorted slice: the result
is a position `pos ≤ len` with everything before it `< x` and everything
from it on `≥ x`. -/
theorem SearchStrings_spec (a : List Node) (x : Node)
    (hsorted : a.Pairwise (fun s t => strLt s t = true)) :
    (∀ h, (hh : h < a.length) → h < SearchStrings a x → strLt (a.get ⟨h, hh⟩) x = true) ∧
    (∀ h, (hh : h < a.length) → SearchStrings a x ≤ h → strLt (a.get ⟨h, hh⟩) x = false) ∧
    SearchStrings a x ≤ a.length := by
  have hidx : ∀ i j, (hij : i < j) → (hj : j < a.length) →
      strLt (a.get ⟨i, lt_trans hij hj⟩) (a.get ⟨j, hj⟩) = true := by
    intro i j hij hj
    have := List.pairwise_iff_getElem.mp hsorted i j (by omega) hj hij
    simpa using this
  have hmono : ∀ i j, i ≤ j → j < a.length →
      strLe x (a.getD i "") = true → strLe x (a.getD j "") = true := by
    intro i j hij hj hfi
    rcases Nat.eq_or_lt_of_le hij with heq | hlt
    · subst heq; exact hfi
    · have hi : i < a.length := by omega
      rw [List.getD_eq_getElem a "" hi] at hfi
      rw [List.getD_eq_getElem a "" hj]
      simp only [strLe, Bool.not_eq_true', Bool.not_eq_false] at hfi ⊢
      cases he : strLt (a.get ⟨j, hj⟩) x
      · rfl
      · have h1 : strLt (a.get ⟨i, hi⟩) (a.get ⟨j, hj⟩) = true := by
          have := hidx i j hlt hj
          simpa using this
        have h2 := strLt_trans h1 he
        simp only [List.get_eq_getElem] at h2
        rw [h2] at hfi
        exact absurd hfi (by simp)
  have hspec := searchLoop_spec (fun h => strLe x (a.getD h "")) a.length hmono
    a.length 0 a.length (le_refl _) (Nat.zero_le _) (by omega)
    (by intro h hh; exact absurd hh (by omega))
    (by intro h hh hn; exact absurd hn (by omega))
  refine ⟨?_, ?_, hspec.2.2.2⟩
  · intro h hh hlt
    have h1 : strLe x (a.getD h "") = false := hspec.1 h hlt
    rw [List.getD_eq_getElem a "" hh] at h1
    simp only [strLe, Bool.not_eq_true', Bool.not_eq_false] at h1
    simpa using h1
  · intro h hh hge
    have h1 : strLe x (a.getD h "") = true := hspec.2.1 h hge hh
    rw [List.getD_eq_getElem a "" hh] at h1
    simp only [strLe, Bool.not_eq_true', Bool.not_eq_false] at h1
    simpa using h1

/-- When every current member sorts strictly before the probed node, the
binary search answers `len(m.nodes)`. -/
theorem SearchStrings_eq_length_of_all_lt (a : List Node) (x : Node)
    (hafter : ∀ y ∈ a, strLt y x = true) : SearchStrings a x = a.length := by
  have hfalse : ∀ h, h < a.length → strLe x (a.getD h "") = false := by
    intro h hh
    rw [List.getD_eq_getElem a "" hh]
    have := hafter (a.get ⟨h, hh⟩) (by simp [List.get_eq_getElem, List.getElem_mem])
    simp only [strLe, List.get_eq_getElem] at this ⊢
    rw [this]
    rfl
  have hmono : ∀ i j, i ≤ j → j < a.length →
      strLe x (a.getD i "") = true → strLe x (a.getD j "") = true := by
    intro i j hij hj hfi
    have := hfalse i (by omega)
    rw [this] at hfi
    exact absurd hfi (by simp)
  have hspec := searchLoop_spec (fun h => strLe x (a.getD h "")) a.length hmono
    a.length 0 a.length (le_refl _) (Nat.zero_le _) (by omega)
    (by intro h hh; exact absurd hh (by omega))
    (by intro h hh hn; exact absurd hn (by omega))
  by_contra hne
  have hlt : SearchStrings a x < a.length := by
    have := hspec.2.2.2
    simp only [SearchStrings] at hne ⊢
    omega
  have h1 : strLe x (a.getD (SearchStrings a x) "") = true := hspec.2.1 _ (le_refl _) hlt
  rw [hfalse _ hlt] at h1
  exact absurd h1 (by simp)

/-! ### Claims C9, C5: the membership probe -/

/-- C9: the binary-search probe reads `nodes[pos]` without a bounds check,
so any node identifier sorting strictly after every current member (in
particular, any probe on an empty node set) makes `Contains`, `Add` and
`Remove` panic instead of answering. -/
theorem claim_C9 (m : M) (node : Node)
    (hafter : ∀ y ∈ m.nodes, strLt y node = true) :
    Contains m node = none ∧ Add m [node] = none ∧ Remove m [node] = none := by
  have hpos : SearchStrings m.nodes node = m.nodes.length :=
    SearchStrings_eq_length_of_all_lt m.nodes node hafter
  have hnone : m.nodes[SearchStrings m.nodes node]? = none := by
    rw [hpos]
    exact List.getElem?_eq_none (le_refl _)
  refine ⟨?_, ?_, ?_⟩
  · rw [Contains, hnone]
  · rw [Add, addLoop, hnone]
  · rw [Remove, removeLoop, hnone]

/-- C9 witness: the concrete one-node instance `{"a"}` probed with the
larger key `"b"` panics in all three operations. -/
theorem claim_C9_witness :
    Contains mA "b" = none ∧ Add mA ["b"] = none ∧ Remove mA ["b"] = none :=
  claim_C9 mA "b" (by intro y hy; simp [mA] at hy; subst hy; rfl)

/-- C5 counterexample: `Contains` is not a total membership test — on the
one-node instance `{"a"}`, probing the absent node `"b"` panics (`none`)
instead of returning `false`. -/
theorem claim_C5_cex : Contains mA "b" = none ∧ "b" ∉ mA.nodes := by
  constructor
  · rfl
  · simp [mA]

/-- C5 (amended): on a sorted instance, `Contains node` is the membership
test provided some member sorts at or after `node` (so the probe position
is in range); probes past the end panic instead (see C9). -/
theorem claim_C5 (m : M) (node : Node)
    (hsorted : m.nodes.Pairwise (fun s t => strLt s t = true))
    (hrange : ∃ y ∈ m.nodes, strLe node y = true) :
    Contains m node = some (decide (node ∈ m.nodes)) := by
  obtain ⟨hbefore, hat, hle⟩ := SearchStrings_spec m.nodes node hsorted
  obtain ⟨y, hy, hxy⟩ := hrange
  obtain ⟨iy, hiy, hyeq⟩ := List.mem_iff_getElem.mp hy
  have hylt : strLt y node = false := by
    simp only [strLe, Bool.not_eq_true'] at hxy
    exact hxy
  have hpos : SearchStrings m.nodes node < m.nodes.length := by
    by_contra hc
    have h1 := hbefore iy hiy (by omega)
    simp only [List.get_eq_getElem, hyeq] at h1
    rw [h1] at hylt
    exact absurd hylt (by simp)
  have hsome : m.nodes[SearchStrings m.nodes node]? =
      some m.nodes[SearchStrings m.nodes node] := List.getElem?_eq_getElem hpos
  simp only [Contains, hsome]
  by_cases hmem : node ∈ m.nodes
  · obtain ⟨ix, hix, hxeq⟩ := List.mem_iff_getElem.mp hmem
    have hposle : SearchStrings m.nodes node ≤ ix := by
      by_contra hc
      have h1 := hbefore ix hix (by omega)
      simp only [List.get_eq_getElem, hxeq, strLt_irrefl] at h1
      exact absurd h1 (by simp)
    have heq : m.nodes[SearchStrings m.nodes node] = node := by
      rcases Nat.eq_or_lt_of_le hposle with he | hl
      · subst he
        exact hxeq
      · exfalso
        have h1 := List.pairwise_iff_getElem.mp hsorted
          (SearchStrings m.nodes node) ix hpos hix hl
        have h2 := hat (SearchStrings m.nodes node) hpos (le_refl _)
        simp only [List.get_eq_getElem] at h2
        rw [hxeq] at h1
        rw [h1] at h2
        exact absurd h2 (by simp)
    rw [heq]
    simp [hmem]
  · have hne : ¬ m.nodes[SearchStrings m.nodes node] = node := by
      intro he
      exact hmem (he ▸ List.getElem_mem hpos)
    simp [hne, hmem]

/-- C5 witness: in-range probes on the sorted two-node instance `{"a","b"}`
answer the membership test for an absent key. -/
theorem claim_C5_witness : Contains mAB "ab" = some false := by
  have h := claim_C5 mAB "ab" (by simp [mAB]; rfl) ⟨"b", by simp [mAB], by rfl⟩
  simpa [mAB] using h

/-! ### Claims C3, C4: the mutation error contracts -/

theorem removeLoop_preserves : ∀ (ns : List Node) (m : M) (n : Nat) (m1 : M) (cnt : Nat),
    removeLoop m ns n = some (m1, cnt) →
    m1.lookup = m.lookup ∧ m1.numPartitions = m.numPartitions := by
  intro ns
  induction ns with
  | nil =>
    intro m n m1 cnt h
    rw [removeLoop] at h
    injection h with h
    injection h with h1 h2
    rw [← h1]
    exact ⟨rfl, rfl⟩
  | cons node rest ih =>
    intro m n m1 cnt h
    cases he : m.nodes[SearchStrings m.nodes node]? with
    | none =>
      simp only [removeLoop, he] at h
      exact absurd h (by simp)
    | some v =>
      simp only [removeLoop, he] at h
      by_cases hv : v = node
      · rw [if_pos hv] at h
        have h2 := ih _ _ _ _ h
        exact h2
      · rw [if_neg hv] at h
        have h2 := ih _ _ _ _ h
        exact h2

/-- The table builder only reads `nodes`, `permutations` and
`numPartitions`, so the `lookup` field is irrelevant to it. -/
theorem populateLookup_set_lookup (m : M) (lk : List Node) :
    populateLookup { m with lookup := lk } = populateLookup m := rfl

/-- The query `Lookup` only reads `lookup` and `numPartitions`. -/
theorem Lookup_congr (m m1 : M) (key : Nat)
    (hl : m1.lookup = m.lookup) (hp : m1.numPartitions = m.numPartitions) :
    Lookup m1 key = Lookup m key := by
  rw [Lookup, Lookup, PartitionID, PartitionID, hl, hp]

/-- C3: a `Remove` call that completes and leaves zero nodes returns the
empty-membership error without rebuilding: the stale table stays, and every
`Lookup` answers exactly as before the call. -/
theorem claim_C3 (m m1 : M) (ns : List Node) (cnt : Nat) (err : Option String)
    (h : Remove m ns = some (m1, cnt, err)) (hzero : m1.nodes.length = 0) :
    err = some "there are no nodes left" ∧ m1.lookup = m.lookup ∧
    ∀ key, Lookup m1 key = Lookup m key := by
  cases hr : removeLoop m ns 0 with
  | none =>
    simp only [Remove, hr] at h
    exact absurd h (by simp)
  | some r =>
    obtain ⟨m2, n⟩ := r
    simp only [Remove, hr] at h
    obtain ⟨hl2, hp2⟩ := removeLoop_preserves ns m 0 m2 n hr
    by_cases hz : m2.nodes.length = 0
    · rw [if_pos hz] at h
      simp only [Option.some.injEq, Prod.mk.injEq] at h
      obtain ⟨h1, h2, h3⟩ := h
      refine ⟨h3.symm, ?_, ?_⟩
      · rw [← h1]
        exact hl2
      · intro key
        rw [← h1]
        exact Lookup_congr m m2 key hl2 hp2
    · rw [if_neg hz] at h
      cases hp : populateLookup m2 with
      | none => rw [hp] at h; exact absurd h (by simp)
      | some lk =>
        rw [hp] at h
        simp only [Option.some.injEq, Prod.mk.injEq] at h
        exfalso
        apply hz
        rw [← hzero, ← h.1]

/-- C3 witness: removing the only node of the live instance `mA` reports
the error and leaves the stale table, with all lookups unchanged. -/
theorem claim_C3_witness :
    Remove mA ["a"] = some (mE, 1, some "there are no nodes left") ∧
    mE.lookup = mA.lookup ∧ ∀ key, Lookup mE key = Lookup mA key := by
  have h := claim_C3 mA mE ["a"] 1 (some "there are no nodes left") (by rfl) (by rfl)
  exact ⟨by rfl, h.2.1, h.2.2⟩

theorem addLoop_spec : ∀ (ns : List Node) (m : M) (n : Nat) (m1 : M) (cnt : Nat),
    addLoop m ns n = some (m1, cnt) →
    m1.numPartitions = m.numPartitions ∧
    m1.nodes.length + n = m.nodes.length + cnt ∧
    (∀ x ∈ ns, x ∈ m1.nodes) ∧ (∀ x ∈ m.nodes, x ∈ m1.nodes) := by
  intro ns
  induction ns with
  | nil =>
    intro m n m1 cnt h
    rw [addLoop] at h
    injection h with h
    injection h with h1 h2
    rw [← h1]
    exact ⟨rfl, by omega, by simp, fun x hx => hx⟩
  | cons node rest ih =>
    intro m n m1 cnt h
    cases he : m.nodes[SearchStrings m.nodes node]? with
    | none =>
      simp only [addLoop, he] at h
      exact absurd h (by simp)
    | some v =>
      have hlt : SearchStrings m.nodes node < m.nodes.length := by
        by_contra hc
        have h9 : m.nodes[SearchStrings m.nodes node]? = none :=
          List.getElem?_eq_none (by omega)
        rw [h9] at he
        exact absurd he (by simp)
      simp only [addLoop, he] at h
      by_cases hv : v ≠ node
      · rw [if_pos hv] at h
        obtain ⟨hp, hlen, hmem, hold⟩ := ih _ _ _ _ h
        have hinslen : (m.nodes.insertIdx (SearchStrings m.nodes node) node).length =
            m.nodes.length + 1 := List.length_insertIdx _ _ (by omega)
        refine ⟨hp, by simp only [hinslen] at hlen; omega, ?_, ?_⟩
        · intro x hx
          rcases List.mem_cons.mp hx with hx | hx
          · subst hx
            exact hold x ((List.mem_insertIdx (by omega)).mpr (Or.inl rfl))
          · exact hmem x hx
        · intro x hx
          exact hold x ((List.mem_insertIdx (by omega)).mpr (Or.inr hx))
      · rw [if_neg hv] at h
        obtain ⟨hp, hlen, hmem, hold⟩ := ih _ _ _ _ h
        refine ⟨hp, hlen, ?_, hold⟩
        intro x hx
        rcases List.mem_cons.mp hx with hx | hx
        · subst hx
          have hvm : v ∈ m.nodes := by
            have h2 := List.getElem?_eq_getElem hlt
            rw [he] at h2
            injection h2 with h2
            rw [h2]
            exact List.getElem_mem hlt
          have hveq : v = x := by by_contra hc; exact hv hc
          exact hold x (hveq ▸ hvm)
        · exact hmem x hx

/-- C4: an `Add` call that completes and overflows the partition count
returns the capacity error only after the mutation and rebuild: the size
reflects the enlarged (too-large) set, the requested nodes are members, and
the stored table is exactly what the builder produces for the enlarged
set. -/
theorem claim_C4 (m m1 : M) (ns : List Node) (cnt : Nat) (err : Option String)
    (h : Add m ns = some (m1, cnt, err)) (hover : m1.nodes.length > m1.numPartitions) :
    err = some "number of nodes exceed number of partitions" ∧
    Size m1 = Size m + cnt ∧ (∀ x ∈ ns, x ∈ m1.nodes) ∧
    populateLookup m1 = some m1.lookup := by
  cases ha : addLoop m ns 0 with
  | none =>
    simp only [Add, ha] at h
    exact absurd h (by simp)
  | some r =>
    obtain ⟨m2, n⟩ := r
    simp only [Add, ha] at h
    cases hp : populateLookup m2 with
    | none => rw [hp] at h; exact absurd h (by simp)
    | some lk =>
      simp only [hp] at h
      obtain ⟨hpart, hlen, hmem, hold⟩ := addLoop_spec ns m 0 m2 n ha
      by_cases hc : m2.nodes.length > m2.numPartitions
      · rw [if_pos hc] at h
        simp only [Option.some.injEq, Prod.mk.injEq] at h
        obtain ⟨h1, h2, h3⟩ := h
        subst h1
        subst h2
        refine ⟨h3.symm, ?_, hmem, ?_⟩
        · simp only [Size]
          omega
        · rw [populateLookup_set_lookup, hp]
      · rw [if_neg hc] at h
        simp only [Option.some.injEq, Prod.mk.injEq] at h
        exfalso
        rw [← h.1] at hover
        exact hc hover

/-- C4 witness: on the full 2-partition instance `{"a","b"}`, adding `"aa"`
returns the capacity error, yet the size is 3, `"aa"` is a member, and the
table has been rebuilt over all three nodes. -/
theorem claim_C4_witness :
    (some "number of nodes exceed number of partitions" : Option String) =
      some "number of nodes exceed number of partitions" ∧
    Size mAB2X = Size mAB2 + 1 ∧ (∀ x ∈ ["aa"], x ∈ mAB2X.nodes) ∧
    populateLookup mAB2X = some mAB2X.lookup :=
  claim_C4 mAB2 mAB2X ["aa"] 1 (some "number of nodes exceed number of partitions")
    (by rfl) (by decide)

/-! ### Claim C8: PartitionID -/

theorem modPow_eq : ∀ (fuel a e n : Nat), 0 < n → e < 2 ^ fuel →
    modPow fuel a e n = a ^ e % n := by
  intro fuel
  induction fuel with
  | zero =>
    intro a e n hn he
    have : e = 0 := by
      have : (2 : Nat) ^ 0 = 1 := by norm_num
      omega
    subst this
    simp [modPow]
  | succ fuel ih =>
    intro a e n hn he
    rw [modPow]
    by_cases h0 : e = 0
    · rw [if_pos h0, h0]
      simp
    · rw [if_neg h0]
      have hlt : e / 2 < 2 ^ fuel := by
        have h2 : 2 ^ (fuel + 1) = 2 * 2 ^ fuel := by ring
        omega
      have hr := ih (a * a % n) (e / 2) n hn hlt
      have hpow : (a * a % n) ^ (e / 2) % n = (a * a) ^ (e / 2) % n :=
        (Nat.pow_mod (a * a) (e / 2) n).symm
      have h2 : (a * a) ^ (e / 2) = a ^ (2 * (e / 2)) := by
        rw [pow_mul, pow_two]
      by_cases hodd : e % 2 = 1
      · rw [if_pos hodd, hr, hpow, h2]
        have he2 : 2 * (e / 2) + 1 = e := by omega
        calc a ^ (2 * (e / 2)) % n * a % n = a ^ (2 * (e / 2)) * a % n := Nat.mod_mul_mod
          _ = a ^ (2 * (e / 2) + 1) % n := by rw [pow_succ]
          _ = a ^ e % n := by rw [he2]
      · rw [if_neg hodd, hr, hpow, h2]
        have he2 : 2 * (e / 2) = e := by omega
        rw [he2]

/-- Lift a `modPow` computation to an equation in `ZMod p`. -/
theorem zmodPow_eq {p a e r : Nat} (hp : 0 < p) (he : e < 2 ^ 64) (hr : r < p)
    (h : modPow 64 a e p = r) : ((a : ZMod p)) ^ e = ((r : Nat) : ZMod p) := by
  have h2 : a ^ e % p = r := by rw [← modPow_eq 64 a e p hp he, h]
  have h3 : a ^ e ≡ r [MOD p] := by
    unfold Nat.ModEq
    rw [h2, Nat.mod_eq_of_lt hr]
  have h4 := (ZMod.natCast_eq_natCast_iff (a ^ e) r p).mpr h3
  rwa [Nat.cast_pow] at h4

/-- Distinct naturals below `p` stay distinct in `ZMod p`. -/
theorem natCast_ne_of_lt {p r s : Nat} (hr : r < p) (hs : s < p) (hne : r ≠ s) :
    ((r : Nat) : ZMod p) ≠ ((s : Nat) : ZMod p) := by
  intro h
  have h2 := (ZMod.natCast_eq_natCast_iff r s p).mp h
  unfold Nat.ModEq at h2
  rw [Nat.mod_eq_of_lt hr, Nat.mod_eq_of_lt hs] at h2
  exact hne h2

/-- The number `pBig = 71 * 2^57 + 1` is prime, by the Lucas primality test with
witness 3 (its order is the full group: `3^(p-1) = 1` but neither
`3^((p-1)/2)` nor `3^((p-1)/71)` is 1). -/
theorem pBig_prime : Nat.Prime pBig := by
  have hp0 : 0 < pBig := by norm_num [pBig]
  apply lucas_primality pBig (((3 : Nat) : ZMod pBig))
  · have h := zmodPow_eq (p := pBig) (a := 3) (e := 10232178353385766912) (r := 1)
      hp0 (by norm_num) (by norm_num [pBig]) (by decide)
    have he : pBig - 1 = 10232178353385766912 := by norm_num [pBig]
    rw [he, h, Nat.cast_one]
  · intro q hq hdvd
    have hfact : pBig - 1 = 71 * 2 ^ 57 := by norm_num [pBig]
    rw [hfact] at hdvd
    rcases (Nat.Prime.dvd_mul hq).mp hdvd with h71 | h2
    · have hq71 : q = 71 := (Nat.prime_dvd_prime_iff_eq hq (by norm_num)).mp h71
      subst hq71
      have hdiv : (pBig - 1) / 71 = 144115188075855872 := by norm_num [pBig]
      rw [hdiv]
      have h := zmodPow_eq (p := pBig) (a := 3) (e := 144115188075855872)
        (r := 9100173560718728676) hp0 (by norm_num) (by norm_num [pBig]) (by decide)
      rw [h]
      have hne := natCast_ne_of_lt (p := pBig) (r := 9100173560718728676) (s := 1)
        (by norm_num [pBig]) (by norm_num [pBig]) (by norm_num)
      simpa using hne
    · have hq2 : q = 2 := by
        have := Nat.Prime.dvd_of_dvd_pow hq h2
        exact (Nat.prime_dvd_prime_iff_eq hq (by norm_num)).mp this
      subst hq2
      have hdiv : (pBig - 1) / 2 = 5116089176692883456 := by norm_num [pBig]
      rw [hdiv]
      have h := zmodPow_eq (p := pBig) (a := 3) (e := 5116089176692883456)
        (r := 10232178353385766912) hp0 (by norm_num) (by norm_num [pBig]) (by decide)
      rw [h]
      have hne := natCast_ne_of_lt (p := pBig) (r := 10232178353385766912) (s := 1)
        (by norm_num [pBig]) (by norm_num [pBig]) (by norm_num)
      simpa using hne

/-- C8 counterexample: the claim fails for `uint64` partition counts above
`2^63`.  `NewMaglev([], pBig, ...)` really constructs an instance with the
prime partition count `pBig > 2^63` (the empty node list skips the table
build), and on it `PartitionID(2^63)` is negative — the Go `int` conversion
wraps — so it is neither `key mod numPartitions` nor in
`[0, numPartitions)`. -/
theorem claim_C8_cex :
    NewMaglev [] pBig hash0 hash0 = some (Except.ok mBig) ∧
    Nat.Prime mBig.numPartitions ∧
    PartitionID mBig (2 ^ 63) < 0 := by
  refine ⟨?_, pBig_prime, by decide⟩
  rw [NewMaglev, if_pos pBig_prime]
  rfl

/-- C8 (amended): for every instance with `0 < numPartitions ≤ 2^63` (every
realizable table size; the original claim fails only for prime partition
counts above `2^63`, see the counterexample) and every uint64 key,
`PartitionID key` is exactly `key mod numPartitions`, lies in
`[0, numPartitions)`, and depends only on the key and the partition
count. -/
theorem claim_C8 (m : M) (key : Nat) (hkey : key < U64) (hpos : 0 < m.numPartitions)
    (hbound : m.numPartitions ≤ 2 ^ 63) :
    PartitionID m key = ((key % m.numPartitions : Nat) : Int) ∧
    0 ≤ PartitionID m key ∧ PartitionID m key < (m.numPartitions : Int) ∧
    ∀ m2 : M, m2.numPartitions = m.numPartitions → PartitionID m2 key = PartitionID m key := by
  have hv : key % m.numPartitions < m.numPartitions := Nat.mod_lt key hpos
  have hlt : key % m.numPartitions < 2 ^ 63 := by omega
  have h1 : PartitionID m key = ((key % m.numPartitions : Nat) : Int) := by
    rw [PartitionID, goInt, if_pos hlt]
  refine ⟨h1, ?_, ?_, ?_⟩
  · rw [h1]
    exact Int.natCast_nonneg _
  · rw [h1]
    exact_mod_cast hv
  · intro m2 h2
    rw [PartitionID, PartitionID, h2]

/-- C8 witness: on the 3-partition instance `mA` with key 7 the amended
claim computes concretely. -/
theorem claim_C8_witness :
    PartitionID mA 7 = ((7 % mA.numPartitions : Nat) : Int) ∧
    0 ≤ PartitionID mA 7 ∧ PartitionID mA 7 < (mA.numPartitions : Int) ∧
    ∀ m2 : M, m2.numPartitions = mA.numPartitions → PartitionID m2 7 = PartitionID mA 7 :=
  claim_C8 mA 7 (by norm_num [U64]) (by norm_num [mA]) (by norm_num [mA])

/-! ### Claim C2: the permutation is a bijection -/

theorem genPerm_length (m : M) (node : Node) :
    (generatePermutationsForNode m node).length = m.numPartitions := by
  simp [generatePermutationsForNode]

theorem genPerm_elems_lt (m : M) (node : Node) (hpos : 0 < m.numPartitions) :
    ∀ e ∈ generatePermutationsForNode m node, e < m.numPartitions := by
  intro e he
  simp only [generatePermutationsForNode, List.mem_map] at he
  obtain ⟨i, _, heq⟩ := he
  rw [← heq]
  exact Nat.mod_lt _ hpos

/-- The number `p0` is prime; the certificate uses the factorization
`4294967310 = 2 * 3^2 * 5 * 131 * 364289`. -/
theorem p0_prime : Nat.Prime p0 := by
  have hp0 : 0 < p0 := by norm_num [p0]
  apply lucas_primality p0 (((3 : Nat) : ZMod p0))
  · have h := zmodPow_eq (p := p0) (a := 3) (e := 4294967310) (r := 1)
      hp0 (by norm_num) (by norm_num [p0]) (by decide)
    have he : p0 - 1 = 4294967310 := by norm_num [p0]
    rw [he, h, Nat.cast_one]
  · intro q hq hdvd
    have hfact : p0 - 1 = 2 * 3 ^ 2 * 5 * 131 * 364289 := by norm_num [p0]
    rw [hfact] at hdvd
    have hone : ∀ e r : Nat, (p0 - 1) / q = e → modPow 64 3 e p0 = r →
        r < p0 → r ≠ 1 → ((3 : Nat) : ZMod p0) ^ ((p0 - 1) / q) ≠ 1 := by
      intro e r hdiv hmp hr hne
      rw [hdiv]
      have h := zmodPow_eq (p := p0) (a := 3) hp0 (by calc e = (p0 - 1) / q := hdiv.symm
        _ ≤ p0 - 1 := Nat.div_le_self _ _
        _ < 2 ^ 64 := by norm_num [p0]) hr hmp
      rw [h]
      have := natCast_ne_of_lt (p := p0) (r := r) (s := 1) hr (by norm_num [p0]) hne
      simpa using this
    rcases (Nat.Prime.dvd_mul hq).mp hdvd with hd | hd
    · rcases (Nat.Prime.dvd_mul hq).mp hd with hd | hd
      · rcases (Nat.Prime.dvd_mul hq).mp hd with hd | hd
        · rcases (Nat.Prime.dvd_mul hq).mp hd with hd | hd
          · have hq2 : q = 2 := (Nat.prime_dvd_prime_iff_eq hq (by norm_num)).mp hd
            subst hq2
            exact hone 2147483655 4294967310 (by norm_num [p0]) (by decide)
              (by norm_num [p0]) (by norm_num)
          · have hq3 : q = 3 := by
              have := Nat.Prime.dvd_of_dvd_pow hq hd
              exact (Nat.prime_dvd_prime_iff_eq hq (by norm_num)).mp this
            subst hq3
            exact hone 1431655770 2086193154 (by norm_num [p0]) (by decide)
              (by norm_num [p0]) (by norm_num)
        · have hq5 : q = 5 := (Nat.prime_dvd_prime_iff_eq hq (by norm_num)).mp hd
          subst hq5
          exact hone 858993462 239247313 (by norm_num [p0]) (by decide)
            (by norm_num [p0]) (by norm_num)
      · have hq131 : q = 131 := (Nat.prime_dvd_prime_iff_eq hq (by norm_num)).mp hd
        subst hq131
        exact hone 32786010 1859000016 (by norm_num [p0]) (by decide)
          (by norm_num [p0]) (by norm_num)
    · have hqB : q = 364289 := (Nat.prime_dvd_prime_iff_eq hq (by norm_num)).mp hd
      subst hqB
      exact hone 11790 1338913740 (by norm_num [p0]) (by decide)
        (by norm_num [p0]) (by norm_num)

/-- C2 counterexample: at the prime partition count `p0 = 2^32 + 15` with
`offset = 0`, `skip = p0 - 1`, the `uint64` product `i * skip` overflows
for large `i`, and the generated sequence repeats a value
(`permutation[224] = permutation[4294967310] = 4294967087`), so it does not
contain every partition index exactly once. -/
theorem claim_C2_cex :
    Nat.Prime mC2.numPartitions ∧
    ¬ (∀ c, c < mC2.numPartitions →
        (generatePermutationsForNode mC2 "n").count c = 1) := by
  refine ⟨p0_prime, ?_⟩
  intro hall
  have hlen0 : 0 < mC2.numPartitions := by norm_num [mC2, p0]
  have hnodup : (generatePermutationsForNode mC2 "n").Nodup := by
    rw [List.nodup_iff_count_le_one]
    intro a
    by_cases ha : a < mC2.numPartitions
    · rw [hall a ha]
    · have hnm : a ∉ generatePermutationsForNode mC2 "n" :=
        fun hmem => ha (genPerm_elems_lt mC2 "n" hlen0 a hmem)
      rw [List.count_eq_zero.mpr hnm]
      omega
  simp only [generatePermutationsForNode] at hnodup
  have hinj := List.inj_on_of_nodup_map hnodup
  have h1 : (224 : Nat) ∈ List.range mC2.numPartitions := by
    rw [List.mem_range]
    norm_num [mC2, p0]
  have h2 : (4294967310 : Nat) ∈ List.range mC2.numPartitions := by
    rw [List.mem_range]
    norm_num [mC2, p0]
  have heq := hinj h1 h2 (by decide)
  norm_num at heq

/-- Core of C2: for prime `numPartitions ≤ 2^32` the generated permutation
contains every partition index exactly once. -/
theorem genPerm_count (m : M) (node : Node) (hprime : Nat.Prime m.numPartitions)
    (hbound : m.numPartitions ≤ 2 ^ 32) :
    ∀ c, c < m.numPartitions → (generatePermutationsForNode m node).count c = 1 := by
  intro c hc
  obtain ⟨q, hq⟩ : ∃ q, m.numPartitions = q + 1 :=
    ⟨m.numPartitions - 1, by have := hprime.two_le; omega⟩
  have hp2 : 2 ≤ m.numPartitions := hprime.two_le
  have hO : m.h1 node % U64 % m.numPartitions ≤ q :=
    by have := Nat.mod_lt (m.h1 node % U64) (show 0 < m.numPartitions by omega); omega
  have hS1 : 1 ≤ m.h2 node % U64 % (m.numPartitions - 1) + 1 := by omega
  have hS2 : m.h2 node % U64 % (m.numPartitions - 1) + 1 ≤ q := by
    have := Nat.mod_lt (m.h2 node % U64) (show 0 < m.numPartitions - 1 by omega)
    omega
  have hnowrap : ∀ i, i < m.numPartitions →
      m.h1 node % U64 % m.numPartitions +
        i * (m.h2 node % U64 % (m.numPartitions - 1) + 1) < U64 := by
    intro i hi
    have hiq : i ≤ q := by omega
    have hmul : i * (m.h2 node % U64 % (m.numPartitions - 1) + 1) ≤ q * q :=
      Nat.mul_le_mul hiq hS2
    have hqb : q ≤ 2 ^ 32 - 1 := by omega
    have hqq : q * q ≤ (2 ^ 32 - 1) * (2 ^ 32 - 1) := Nat.mul_le_mul hqb hqb
    calc m.h1 node % U64 % m.numPartitions +
        i * (m.h2 node % U64 % (m.numPartitions - 1) + 1) ≤ q + q * q := by omega
      _ ≤ (2 ^ 32 - 1) + (2 ^ 32 - 1) * (2 ^ 32 - 1) := by omega
      _ < U64 := by norm_num [U64]
  have hperm : generatePermutationsForNode m node =
      (List.range m.numPartitions).map
        (fun i => (m.h1 node % U64 % m.numPartitions +
          i * (m.h2 node % U64 % (m.numPartitions - 1) + 1)) % m.numPartitions) := by
    simp only [generatePermutationsForNode]
    apply List.map_congr_left
    intro i hi
    rw [List.mem_range] at hi
    rw [Nat.mod_eq_of_lt (hnowrap i hi)]
  have hinj : ∀ i, i < m.numPartitions → ∀ j, j < m.numPartitions →
      (m.h1 node % U64 % m.numPartitions +
        i * (m.h2 node % U64 % (m.numPartitions - 1) + 1)) % m.numPartitions =
      (m.h1 node % U64 % m.numPartitions +
        j * (m.h2 node % U64 % (m.numPartitions - 1) + 1)) % m.numPartitions →
      i = j := by
    intro i hi j hj hij
    have hmod : m.h1 node % U64 % m.numPartitions +
        i * (m.h2 node % U64 % (m.numPartitions - 1) + 1) ≡
        m.h1 node % U64 % m.numPartitions +
        j * (m.h2 node % U64 % (m.numPartitions - 1) + 1) [MOD m.numPartitions] := hij
    have hcan := Nat.ModEq.add_left_cancel' (m.h1 node % U64 % m.numPartitions) hmod
    have hmul : (m.h2 node % U64 % (m.numPartitions - 1) + 1) * i ≡
        (m.h2 node % U64 % (m.numPartitions - 1) + 1) * j [MOD m.numPartitions] := by
      rw [mul_comm _ i, mul_comm _ j]
      exact hcan
    have hndvd : ¬ m.numPartitions ∣ (m.h2 node % U64 % (m.numPartitions - 1) + 1) := by
      intro hd
      have := Nat.le_of_dvd (by omega) hd
      omega
    have hcop : m.numPartitions.gcd (m.h2 node % U64 % (m.numPartitions - 1) + 1) = 1 :=
      (Nat.Prime.coprime_iff_not_dvd hprime).mpr hndvd
    have hij2 := Nat.ModEq.cancel_left_of_coprime hcop hmul
    have h3 : i % m.numPartitions = j % m.numPartitions := hij2
    rwa [Nat.mod_eq_of_lt hi, Nat.mod_eq_of_lt hj] at h3
  have hFlt : ∀ i : Nat, (m.h1 node % U64 % m.numPartitions +
      i * (m.h2 node % U64 % (m.numPartitions - 1) + 1)) % m.numPartitions <
      m.numPartitions := fun i => Nat.mod_lt _ (by omega)
  have hgsurj : Function.Surjective (fun i : Fin m.numPartitions =>
      (⟨(m.h1 node % U64 % m.numPartitions +
        i.val * (m.h2 node % U64 % (m.numPartitions - 1) + 1)) % m.numPartitions,
        hFlt i.val⟩ : Fin m.numPartitions)) := by
    apply Finite.injective_iff_surjective.mp
    intro i j hijf
    exact Fin.ext (hinj i.val i.isLt j.val j.isLt (congrArg Fin.val hijf))
  obtain ⟨i, hi⟩ := hgsurj ⟨c, hc⟩
  have hmem : c ∈ (List.range m.numPartitions).map
      (fun i => (m.h1 node % U64 % m.numPartitions +
        i * (m.h2 node % U64 % (m.numPartitions - 1) + 1)) % m.numPartitions) :=
    List.mem_map.mpr ⟨i.val, List.mem_range.mpr i.isLt, congrArg Fin.val hi⟩
  have hnodup : ((List.range m.numPartitions).map
      (fun i => (m.h1 node % U64 % m.numPartitions +
        i * (m.h2 node % U64 % (m.numPartitions - 1) + 1)) % m.numPartitions)).Nodup :=
    List.Nodup.map_on
      (fun x hx y hy hxy => hinj x (List.mem_range.mp hx) y (List.mem_range.mp hy) hxy)
      (List.nodup_range m.numPartitions)
  rw [hperm]
  exact List.count_eq_one_of_mem hnodup hmem

/-- Every partition index occurs in the permutation (coverage), for prime
`numPartitions ≤ 2^32`. -/
theorem genPerm_mem (m : M) (node : Node) (hprime : Nat.Prime m.numPartitions)
    (hbound : m.numPartitions ≤ 2 ^ 32) :
    ∀ c, c < m.numPartitions → c ∈ generatePermutationsForNode m node := by
  intro c hc
  have h := genPerm_count m node hprime hbound c hc
  exact List.count_pos_iff.mp (by omega)

/-- The generated permutation is duplicate-free, for prime
`numPartitions ≤ 2^32`: each of its `p` entries occurs exactly once. -/
theorem genPerm_nodup (m : M) (node : Node) (hprime : Nat.Prime m.numPartitions)
    (hbound : m.numPartitions ≤ 2 ^ 32) :
    (generatePermutationsForNode m node).Nodup := by
  rw [List.nodup_iff_count_le_one]
  intro a
  rcases Nat.lt_or_ge a m.numPartitions with ha | ha
  · rw [genPerm_count m node hprime hbound a ha]
  · have hnm : a ∉ generatePermutationsForNode m node := fun hmem => by
      have := genPerm_elems_lt m node hprime.pos a hmem
      omega
    rw [List.count_eq_zero_of_not_mem hnm]
    omega

/-- C2 (amended): for every prime `numPartitions = p` with `p ≤ 2^32` (so
that `offset + i*skip < 2^64` — the original claim fails for larger primes
by `uint64` overflow, see the counterexample) and every node, the generated
permutation contains every partition index in `[0, p)` exactly once. -/
theorem claim_C2 (m : M) (node : Node) (hprime : Nat.Prime m.numPartitions)
    (hbound : m.numPartitions ≤ 2 ^ 32) :
    ∀ c, c < m.numPartitions → (generatePermutationsForNode m node).count c = 1 :=
  genPerm_count m node hprime hbound

/-- C2 witness: on the 3-partition instance `mA` every partition index
appears exactly once in the node permutation; shown here at index 2. -/
theorem claim_C2_witness : (generatePermutationsForNode mA "a").count 2 = 1 :=
  claim_C2 mA "a" (by norm_num [mA]) (by norm_num [mA]) 2 (by norm_num [mA])

/-! ### The table builder: scan-loop lemmas -/

theorem getD_set_self (L : List Node) (c : Nat) (v : Node) (hc : c < L.length) :
    (L.set c v).getD c "" = v := by
  rw [List.getD_eq_getElem?_getD, List.getElem?_set_self hc]
  rfl

theorem getD_set_ne (L : List Node) (c : Nat) (v : Node) (d : Nat) (hd : c ≠ d) :
    (L.set c v).getD d "" = L.getD d "" := by
  rw [List.getD_eq_getElem?_getD, List.getElem?_set_ne hd, ← List.getD_eq_getElem?_getD]

/-- Unfolding equation for `scanSlot` in cursor form. -/
theorem scanSlot_eq (perm : List Nat) (L : List Node) (cur : Nat) :
    scanSlot perm L cur =
      if h : cur < perm.length then
        if L.getD perm[cur] "" ≠ "" then scanSlot perm L (cur + 1)
        else some (perm[cur], cur)
      else none := by
  by_cases h : cur < perm.length
  · rw [dif_pos h, scanSlot, List.drop_eq_getElem_cons h, scanAux]
    rfl
  · rw [dif_neg h, scanSlot, List.drop_eq_nil_of_le (by omega), scanAux]

/-- What a successful scan returns: the first empty slot at or after the
cursor, every skipped slot being non-empty. -/
theorem scanSlot_sound : ∀ (fuel : Nat) (perm : List Nat) (L : List Node) (cur c cur1 : Nat),
    perm.length - cur ≤ fuel →
    scanSlot perm L cur = some (c, cur1) →
    cur ≤ cur1 ∧ ∃ (h : cur1 < perm.length), perm[cur1] = c ∧ L.getD c "" = "" ∧
      (∀ j, (hj : j < perm.length) → cur ≤ j → j < cur1 → L.getD perm[j] "" ≠ "") := by
  intro fuel
  induction fuel with
  | zero =>
    intro perm L cur c cur1 hfuel hscan
    rw [scanSlot_eq, dif_neg (by omega)] at hscan
    exact absurd hscan (by simp)
  | succ fuel ih =>
    intro perm L cur c cur1 hfuel hscan
    rw [scanSlot_eq] at hscan
    by_cases h : cur < perm.length
    · rw [dif_pos h] at hscan
      by_cases hfill : L.getD perm[cur] "" ≠ ""
      · rw [if_pos hfill] at hscan
        obtain ⟨h1, h2, h3, h4, h5⟩ := ih perm L (cur + 1) c cur1 (by omega) hscan
        refine ⟨by omega, h2, h3, h4, ?_⟩
        intro j hj hj1 hj2
        rcases Nat.eq_or_lt_of_le hj1 with he | hl
        · subst he
          exact hfill
        · exact h5 j hj hl hj2
      · rw [if_neg hfill] at hscan
        simp only [Option.some.injEq, Prod.mk.injEq] at hscan
        obtain ⟨hc, hcur⟩ := hscan
        subst hcur
        refine ⟨le_refl _, h, hc, ?_, ?_⟩
        · rw [← hc]
          simpa using hfill
        · intro j hj hj1 hj2
          omega
    · rw [dif_neg h] at hscan
      exact absurd hscan (by simp)

/-- The scan succeeds whenever some slot at or after the cursor is empty. -/
theorem scanSlot_isSome : ∀ (fuel : Nat) (perm : List Nat) (L : List Node) (cur : Nat),
    perm.length - cur ≤ fuel →
    (∃ j, cur ≤ j ∧ ∃ (hj : j < perm.length), L.getD perm[j] "" = "") →
    (scanSlot perm L cur).isSome := by
  intro fuel
  induction fuel with
  | zero =>
    intro perm L cur hfuel hex
    obtain ⟨j, hj1, hj2, _⟩ := hex
    omega
  | succ fuel ih =>
    intro perm L cur hfuel hex
    obtain ⟨j, hj1, hj2, hj3⟩ := hex
    rw [scanSlot_eq, dif_pos (by omega)]
    by_cases hfill : L.getD perm[cur] "" ≠ ""
    · rw [if_pos hfill]
      apply ih perm L (cur + 1) (by omega)
      refine ⟨j, ?_, hj2, hj3⟩
      rcases Nat.eq_or_lt_of_le hj1 with he | hl
      · exfalso
        subst he
        exact hfill hj3
      · omega
    · rw [if_neg hfill]
      rfl

/-! ### The table builder: one sweep (counting) -/

/-- What one sweep of the node list does to the table, counted per node:
the first `k` nodes of the sweep each claim one slot (`n` grows by `k`);
a claim by a real node adds one occurrence of it to the table, while a
claim by the empty-string node leaves the table unchanged (its slot stays
"empty"), which is how the filled counter `n` can outrun the table. -/
theorem passStep_sound (p : Nat) (perms : Node → List Nat) :
    ∀ (pairs : List (Node × Nat)) (L : List Node) (n : Nat)
      (pairs1 : List (Node × Nat)) (L1 : List Node) (n1 : Nat) (done : Bool),
    passStep p perms pairs L n = some (pairs1, L1, n1, done) →
    (∀ x ∈ pairs.map Prod.fst, ∀ e ∈ perms x, e < p) →
    L.length = p → n < p →
    ∃ k, n1 = n + k ∧ k ≤ pairs.length ∧
      pairs1.map Prod.fst = pairs.map Prod.fst ∧
      L1.length = p ∧
      (done = true → n1 = p ∧ 1 ≤ k) ∧
      (done = false → k = pairs.length ∧ n1 < p) ∧
      (∀ x, x ≠ "" → L1.count x =
        L.count x + ((pairs.map Prod.fst).take k).count x) ∧
      ((pairs.map Prod.fst).take k).count "" ≤ k ∧
      L1.count "" + (k - ((pairs.map Prod.fst).take k).count "") = L.count "" ∧
      (∀ e ∈ L1, e ∈ L ∨ e ∈ pairs.map Prod.fst) := by
  intro pairs
  induction pairs with
  | nil =>
    intro L n pairs1 L1 n1 done h helems hlen hn
    rw [passStep] at h
    simp only [Option.some.injEq, Prod.mk.injEq] at h
    obtain ⟨h1, h2, h3, h4⟩ := h
    subst h1
    subst h2
    subst h3
    subst h4
    exact ⟨0, by omega, by simp, rfl, hlen, by simp, fun _ => ⟨rfl, hn⟩,
      fun x _ => by simp, by simp, by simp, fun e he => Or.inl he⟩
  | cons pr rest ih =>
    intro L n pairs1 L1 n1 done h helems hlen hn
    obtain ⟨node, cur⟩ := pr
    rw [passStep] at h
    cases hscan : scanSlot (perms node) L cur with
    | none => rw [hscan] at h; exact absurd h (by simp)
    | some r =>
      obtain ⟨c, cur1⟩ := r
      simp only [hscan] at h
      obtain ⟨_, hcur1, hc, hempty, _⟩ :=
        scanSlot_sound ((perms node).length - cur) (perms node) L cur c cur1
          (le_refl _) hscan
      have hnode : node ∈ ((node, cur) :: rest).map Prod.fst := by simp
      have hcp : c < p := by
        rw [← hc]
        exact helems node hnode _ (List.getElem_mem hcur1)
      have hcL : c < L.length := by omega
      have hLc : L[c] = "" := by
        rw [List.getD_eq_getElem L "" hcL] at hempty
        exact hempty
      have hmemc : ("" : Node) ∈ L := by
        rw [← hLc]
        exact List.getElem_mem hcL
      have hcount1 : 1 ≤ L.count "" := List.count_pos_iff.mpr hmemc
      -- effect of the single set on the counts
      have hset_ne : ∀ x : Node, x ≠ "" → (L.set c node).count x =
          L.count x + (if node = x then 1 else 0) := by
        intro x hx
        rw [List.count_set node x L c hcL]
        have : (L[c] == x) = false := by
          rw [hLc]
          simp [Ne.symm hx]
        rw [this]
        simp only [Bool.false_eq_true, if_false, Nat.sub_zero]
        by_cases hnx : node = x
        · simp [hnx]
        · simp [hnx]
      have hset_empty : (L.set c node).count "" + (1 - (if node = "" then 1 else 0)) =
          L.count "" := by
        rw [List.count_set node "" L c hcL]
        have : (L[c] == "") = true := by rw [hLc]; simp
        rw [this]
        simp only [if_true]
        by_cases hne : node = ""
        · simp [hne]
          omega
        · simp [hne]
          omega
      have hsetlen : (L.set c node).length = p := by
        rw [List.length_set]
        exact hlen
      have hsetmem : ∀ e ∈ L.set c node, e ∈ L ∨
          e ∈ ((node, cur) :: rest).map Prod.fst := by
        intro e he
        rcases List.mem_or_eq_of_mem_set he with he | he
        · exact Or.inl he
        · right
          rw [he]
          simp
      by_cases hdone : n + 1 = p
      · rw [if_pos hdone] at h
        simp only [Option.some.injEq, Prod.mk.injEq] at h
        obtain ⟨h1, h2, h3, h4⟩ := h
        subst h1
        subst h2
        subst h3
        subst h4
        refine ⟨1, by omega, by simp, by simp, hsetlen, fun _ => ⟨hdone, le_refl 1⟩,
          by simp, ?_, ?_, ?_, hsetmem⟩
        · intro x hx
          rw [hset_ne x hx]
          simp [List.count_cons]
        · simp only [List.map_cons, List.take_succ_cons, List.take_zero, List.count_cons,
            List.count_nil, beq_iff_eq]
          by_cases hne : node = ""
          · simp only [if_pos hne]
            omega
          · simp only [if_neg hne]
            omega
        · simp only [List.map_cons, List.take_succ_cons, List.take_zero, List.count_cons,
            List.count_nil, beq_iff_eq]
          by_cases hne : node = ""
          · simp only [if_pos hne]
            simp only [if_pos hne] at hset_empty
            omega
          · simp only [if_neg hne]
            simp only [if_neg hne] at hset_empty
            omega
      · rw [if_neg hdone] at h
        cases hrest : passStep p perms rest (L.set c node) (n + 1) with
        | none => rw [hrest] at h; exact absurd h (by simp)
        | some r2 =>
          obtain ⟨pairs2, L2, n2, done2⟩ := r2
          rw [hrest] at h
          simp only [Option.some.injEq, Prod.mk.injEq] at h
          obtain ⟨h1, h2, h3, h4⟩ := h
          obtain ⟨k2, hk1, hk2, hk3, hk4, hk5, hk6, hk7, hk8, hk9, hk10⟩ :=
            ih (L.set c node) (n + 1) pairs2 L2 n2 done2 hrest
              (by intro x hx; exact helems x (by simp [hx]))
              hsetlen (by omega)
          refine ⟨k2 + 1, by omega, by simp; omega, ?_, by rw [← h2]; exact hk4, ?_, ?_,
            ?_, ?_, ?_, ?_⟩
          · rw [← h1]
            simp [hk3]
          · intro hd
            subst h4
            obtain ⟨hp1, hp2⟩ := hk5 hd
            exact ⟨by omega, by omega⟩
          · intro hd
            subst h4
            obtain ⟨hp1, hp2⟩ := hk6 hd
            constructor
            · simp
              omega
            · omega
          · intro x hx
            rw [← h2, hk7 x hx, hset_ne x hx]
            simp only [List.map_cons, List.take_succ_cons, List.count_cons, beq_iff_eq]
            by_cases hnx : node = x
            · simp only [if_pos hnx]
              omega
            · simp only [if_neg hnx]
              omega
          · simp only [List.map_cons, List.take_succ_cons, List.count_cons, beq_iff_eq]
            by_cases hne : node = ""
            · simp only [if_pos hne]
              omega
            · simp only [if_neg hne]
              omega
          · rw [← h2]
            simp only [List.map_cons, List.take_succ_cons, List.count_cons, beq_iff_eq]
            by_cases hne : node = ""
            · simp only [if_pos hne]
              simp only [if_pos hne] at hset_empty
              omega
            · simp only [if_neg hne]
              simp only [if_neg hne] at hset_empty
              omega
          · intro e he
            rw [← h2] at he
            rcases hk10 e he with he2 | he2
            · exact hsetmem e he2
            · right
              simp only [List.map_cons, List.mem_cons]
              right
              exact he2

/-! ### The table builder: one sweep (progress) -/

/-- When no member is the empty string, every member permutation covers all
of `[0, p)`, and fewer than `p` slots are filled, one sweep cannot panic:
every scan finds an empty slot before its cursor can overrun.  The sweep
preserves the cursor invariant (all permutation positions below a node's
cursor point at non-empty slots) and the fill count `L.count "" + n = p`,
and only ever fills slots (never empties one). -/
theorem passStep_progress (p : Nat) (perms : Node → List Nat) :
    ∀ (pairs : List (Node × Nat)) (L : List Node) (n : Nat),
    (∀ x ∈ pairs.map Prod.fst, x ≠ "") →
    (∀ x ∈ pairs.map Prod.fst, (perms x).length = p) →
    (∀ x ∈ pairs.map Prod.fst, ∀ e ∈ perms x, e < p) →
    (∀ x ∈ pairs.map Prod.fst, ∀ c, c < p → c ∈ perms x) →
    L.length = p →
    L.count "" + n = p →
    n < p →
    (∀ pr ∈ pairs, ∀ j, (hj : j < (perms pr.1).length) → j < pr.2 →
      L.getD (perms pr.1)[j] "" ≠ "") →
    ∃ pairs1 L1 n1 done, passStep p perms pairs L n = some (pairs1, L1, n1, done) ∧
      pairs1.map Prod.fst = pairs.map Prod.fst ∧
      L1.length = p ∧ L1.count "" + n1 = p ∧
      (done = true ↔ n1 = p) ∧
      (done = false → n1 = n + pairs.length) ∧
      (∀ d, L1.getD d "" = "" → L.getD d "" = "") ∧
      (∀ pr ∈ pairs1, ∀ j, (hj : j < (perms pr.1).length) → j < pr.2 →
        L1.getD (perms pr.1)[j] "" ≠ "") := by
  intro pairs
  induction pairs with
  | nil =>
    intro L n hne hlen hcov helems hL hfill hn hcur
    refine ⟨[], L, n, false, by rw [passStep], rfl, hL, hfill, ?_, fun _ => by simp,
      fun d hd => hd, fun pr hpr => absurd hpr (by simp)⟩
    simp
    omega
  | cons pr rest ih =>
    intro L n hne hlen helems hcov hL hfill hn hcur
    obtain ⟨node, cur⟩ := pr
    have hnodemem : node ∈ ((node, cur) :: rest).map Prod.fst := by simp
    -- some slot is empty, and it sits in this node permutation at or past the cursor
    have hc0 : ∃ d, ∃ (hd : d < L.length), L[d] = "" := by
      have h1 : 0 < L.count "" := by omega
      have h2 : ("" : Node) ∈ L := List.count_pos_iff.mp h1
      exact List.mem_iff_getElem.mp h2
    obtain ⟨d, hdlen, hdval⟩ := hc0
    have hdp : d < p := by omega
    have hdmem : d ∈ perms node := hcov node hnodemem d hdp
    obtain ⟨j0, hj0, hj0e⟩ := List.mem_iff_getElem.mp hdmem
    have hj0empty : L.getD (perms node)[j0] "" = "" := by
      rw [hj0e, List.getD_eq_getElem L "" hdlen]
      exact hdval
    have hj0cur : cur ≤ j0 := by
      by_contra hlt
      exact hcur (node, cur) (by simp) j0 hj0 (by omega) hj0empty
    have hsome := scanSlot_isSome ((perms node).length - cur) (perms node) L cur
      (le_refl _) ⟨j0, hj0cur, hj0, hj0empty⟩
    cases hscan : scanSlot (perms node) L cur with
    | none => rw [hscan] at hsome; exact absurd hsome (by simp)
    | some r =>
      obtain ⟨c, cur1⟩ := r
      obtain ⟨hcc, hcur1, hcval, hcempty, hskip⟩ :=
        scanSlot_sound ((perms node).length - cur) (perms node) L cur c cur1
          (le_refl _) hscan
      have hcp : c < p := by
        rw [← hcval]
        exact helems node hnodemem _ (List.getElem_mem hcur1)
      have hcL : c < L.length := by omega
      have hLc : L[c] = "" := by
        rw [List.getD_eq_getElem L "" hcL] at hcempty
        exact hcempty
      have hnodene : node ≠ "" := hne node hnodemem
      -- the claim fills exactly one empty slot
      have hsetcount : (L.set c node).count "" + 1 = L.count "" := by
        rw [List.count_set node "" L c hcL]
        have h1 : (L[c] == "") = true := by rw [hLc]; simp
        have h2 : ((node : Node) == "") = false := by simp [hnodene]
        rw [h1, h2]
        have h3 : 0 < L.count "" := by omega
        simp only [if_true, Bool.false_eq_true, if_false]
        omega
      have hsetlen : (L.set c node).length = p := by rw [List.length_set]; exact hL
      have hmono2 : ∀ d2, (L.set c node).getD d2 "" = "" → L.getD d2 "" = "" := by
        intro d2 hd2
        by_cases hdc : c = d2
        · subst hdc
          rw [getD_set_self L c node hcL] at hd2
          exact absurd hd2 hnodene
        · rwa [getD_set_ne L c node d2 hdc] at hd2
      have hantimono2 : ∀ d2, L.getD d2 "" ≠ "" → (L.set c node).getD d2 "" ≠ "" :=
        fun d2 hd2 hd3 => hd2 (hmono2 d2 hd3)
      have hheadcur : ∀ j, (hj : j < (perms node).length) → j < cur1 + 1 →
          (L.set c node).getD (perms node)[j] "" ≠ "" := by
        intro j hj hjlt
        by_cases hj1 : j < cur
        · exact hantimono2 _ (hcur (node, cur) (by simp) j hj hj1)
        · by_cases hj2 : j < cur1
          · exact hantimono2 _ (hskip j hj (by omega) hj2)
          · have hje : j = cur1 := by omega
            subst hje
            rw [hcval, getD_set_self L c node hcL]
            exact hnodene
      have hrestcur : ∀ pr2 ∈ rest, ∀ j, (hj : j < (perms pr2.1).length) → j < pr2.2 →
          (L.set c node).getD (perms pr2.1)[j] "" ≠ "" := by
        intro pr2 hpr2 j hj hjlt
        exact hantimono2 _ (hcur pr2 (by simp [hpr2]) j hj hjlt)
      by_cases hdone : n + 1 = p
      · refine ⟨(node, cur1 + 1) :: rest, L.set c node, n + 1, true, ?_, rfl, hsetlen,
          by omega, by simp [hdone], by simp, hmono2, ?_⟩
        · rw [passStep]
          simp only [hscan]
          rw [if_pos hdone]
        · intro pr2 hpr2 j hj hjlt
          rcases List.mem_cons.mp hpr2 with he | he
          · subst he
            exact hheadcur j hj hjlt
          · exact hrestcur pr2 he j hj hjlt
      · obtain ⟨pairs2, L2, n2, done2, hp1, hp2, hp3, hp4, hp5, hp6, hp7, hp8⟩ :=
          ih (L.set c node) (n + 1)
            (fun x hx => hne x (by simp [hx]))
            (fun x hx => hlen x (by simp [hx]))
            (fun x hx => helems x (by simp [hx]))
            (fun x hx => hcov x (by simp [hx]))
            hsetlen (by omega) (by omega) hrestcur
        refine ⟨(node, cur1 + 1) :: pairs2, L2, n2, done2, ?_, ?_, hp3, hp4, hp5, ?_,
          ?_, ?_⟩
        · rw [passStep]
          simp only [hscan, hp1]
          rw [if_neg hdone]
        · simp [hp2]
        · intro hd
          rw [hp6 hd]
          simp
          omega
        · intro d2 hd2
          exact hmono2 d2 (hp7 d2 hd2)
        · intro pr2 hpr2 j hj hjlt
          rcases List.mem_cons.mp hpr2 with he | he
          · subst he
            intro hcontra
            exact hheadcur j hj hjlt (hp7 _ hcontra)
          · exact hp8 pr2 he j hj hjlt

/-! ### The table builder: the outer loop -/

/-- Round-robin counting across the whole build: when the loop returns a
table, there are `t1` full sweeps plus a final partial sweep of `k` claims
(`p = N * t1 + k`, `1 ≤ k ≤ N`), and every node (the empty string included)
ends up with one tabled occurrence per claim: `count x = (occurrences of x
in the node list) * t1 + (occurrences in the first k nodes)`. -/
theorem populateLoop_count (p : Nat) (perms : Node → List Nat) :
    ∀ (fuel : Nat) (pairs : List (Node × Nat)) (L : List Node) (n t : Nat) (L1 : List Node),
    populateLoop p perms fuel pairs L n = some L1 →
    (∀ x ∈ pairs.map Prod.fst, ∀ e ∈ perms x, e < p) →
    L.length = p → n < p →
    n = pairs.length * t →
    (∀ x, x ≠ "" → L.count x = ((pairs.map Prod.fst).count x) * t) →
    (L.count "" + n = p + ((pairs.map Prod.fst).count "") * t) →
    (∀ e ∈ L, e = "" ∨ e ∈ pairs.map Prod.fst) →
    ∃ t1 k, 1 ≤ k ∧ k ≤ pairs.length ∧
      p = pairs.length * t1 + k ∧
      L1.length = p ∧
      (∀ x, x ≠ "" → L1.count x =
        ((pairs.map Prod.fst).count x) * t1 + (((pairs.map Prod.fst).take k).count x)) ∧
      L1.count "" =
        ((pairs.map Prod.fst).count "") * t1 + (((pairs.map Prod.fst).take k).count "") ∧
      (∀ e ∈ L1, e = "" ∨ e ∈ pairs.map Prod.fst) := by
  intro fuel
  induction fuel with
  | zero =>
    intro pairs L n t L1 h
    rw [populateLoop] at h
    exact absurd h (by simp)
  | succ fuel ih =>
    intro pairs L n t L1 h helems hL hn hnt hcnt hcnt0 hmem
    rw [populateLoop] at h
    cases hpass : passStep p perms pairs L n with
    | none => rw [hpass] at h; exact absurd h (by simp)
    | some r =>
      obtain ⟨pairs1, L2, n2, done⟩ := r
      simp only [hpass] at h
      obtain ⟨k, hk1, hk2, hk3, hk4, hk5, hk6, hk7, hk8, hk9, hk10⟩ :=
        passStep_sound p perms pairs L n pairs1 L2 n2 done hpass helems hL hn
      have hcle : ((pairs.map Prod.fst).count "") ≤ pairs.length := by
        have := List.count_le_length ("" : Node) (pairs.map Prod.fst)
        rwa [List.length_map] at this
      cases done with
      | true =>
        rw [if_pos rfl] at h
        simp only [Option.some.injEq] at h
        subst h
        obtain ⟨hp2, hk⟩ := hk5 rfl
        refine ⟨t, k, hk, hk2, by omega, hk4, ?_, ?_, ?_⟩
        · intro x hx
          rw [hk7 x hx, hcnt x hx]
        · omega
        · intro e he
          rcases hk10 e he with he2 | he2
          · exact hmem e he2
          · exact Or.inr he2
      | false =>
        rw [if_neg (by simp)] at h
        obtain ⟨hkp, hn2⟩ := hk6 rfl
        have htake : (pairs.map Prod.fst).take k = pairs.map Prod.fst := by
          rw [hkp, ← List.length_map pairs Prod.fst, List.take_length]
        have hlen1 : pairs1.length = pairs.length := by
          rw [← List.length_map pairs1 Prod.fst, ← List.length_map pairs Prod.fst, hk3]
        obtain ⟨t1, k1, hj1, hj2, hj3, hj4, hj5, hj6, hj7⟩ :=
          ih pairs1 L2 n2 (t + 1) L1 h
            (by rw [hk3]; exact helems) hk4 hn2
            (by rw [hlen1, hk1, hnt, hkp]; ring)
            (by intro x hx
                rw [hk3, hk7 x hx, hcnt x hx, htake]
                ring)
            (by rw [hk3]
                have h9 := hk9
                rw [htake] at h9
                have hc0 : ((pairs.map Prod.fst).count "") ≤ k := by omega
                have hmul : ((pairs.map Prod.fst).count "") * (t + 1) =
                    ((pairs.map Prod.fst).count "") * t +
                    ((pairs.map Prod.fst).count "") := by ring
                omega)
            (by intro e he
                rw [hk3]
                rcases hk10 e he with he2 | he2
                · exact hmem e he2
                · exact Or.inr he2)
        rw [hk3] at hj5 hj6 hj7
        rw [hlen1] at hj2 hj3
        exact ⟨t1, k1, hj1, hj2, hj3, hj4, hj5, hj6, hj7⟩

/-- The loop terminates successfully (no panic, no fuel exhaustion) from any
state satisfying the sweep invariants, given `p ≤ fuel + n`. -/
theorem populateLoop_total (p : Nat) (perms : Node → List Nat) :
    ∀ (fuel : Nat) (pairs : List (Node × Nat)) (L : List Node) (n : Nat),
    pairs ≠ [] →
    (∀ x ∈ pairs.map Prod.fst, x ≠ "") →
    (∀ x ∈ pairs.map Prod.fst, (perms x).length = p) →
    (∀ x ∈ pairs.map Prod.fst, ∀ e ∈ perms x, e < p) →
    (∀ x ∈ pairs.map Prod.fst, ∀ c, c < p → c ∈ perms x) →
    L.length = p → L.count "" + n = p → n < p →
    (∀ pr ∈ pairs, ∀ j, (hj : j < (perms pr.1).length) → j < pr.2 →
      L.getD (perms pr.1)[j] "" ≠ "") →
    p ≤ fuel + n →
    ∃ L1, populateLoop p perms fuel pairs L n = some L1 := by
  intro fuel
  induction fuel with
  | zero =>
    intro pairs L n hne0 hne hlen helems hcov hL hfill hn hcur hfuel
    omega
  | succ fuel ih =>
    intro pairs L n hne0 hne hlen helems hcov hL hfill hn hcur hfuel
    obtain ⟨pairs1, L2, n2, done, hpass, hp2, hp3, hp4, hp5, hp6, hp7, hp8⟩ :=
      passStep_progress p perms pairs L n hne hlen helems hcov hL hfill hn hcur
    rw [populateLoop]
    simp only [hpass]
    cases done with
    | true =>
      rw [if_pos rfl]
      exact ⟨L2, rfl⟩
    | false =>
      rw [if_neg (by simp)]
      have hn2 : n2 < p := by
        have := hp5
        simp only [Bool.false_eq_true, false_iff] at this
        omega
      have hne1 : pairs1 ≠ [] := by
        intro hcontra
        rw [hcontra] at hp2
        simp only [List.map_nil] at hp2
        have := congrArg List.length hp2
        simp only [List.length_nil, List.length_map] at this
        exact hne0 (List.eq_nil_of_length_eq_zero this.symm)
      have hlen1 : pairs.length ≤ n2 - n := by
        rw [hp6 rfl]
        omega
      apply ih pairs1 L2 n2 hne1
        (by rw [hp2]; exact hne) (by rw [hp2]; exact hlen)
        (by rw [hp2]; exact helems) (by rw [hp2]; exact hcov)
        hp3 hp4 hn2 hp8
      have hlp : 1 ≤ pairs.length := by
        cases pairs with
        | nil => exact absurd rfl hne0
        | cons a l => simp
      rw [hp6 rfl]
      omega

/-! ### The table builder: top-level wrappers -/

theorem pairs_names : ∀ (nodes : List Node),
    (nodes.map fun nd => (nd, (0 : Nat))).map Prod.fst = nodes
  | [] => rfl
  | x :: xs => by rw [List.map_cons, List.map_cons, pairs_names xs]

/-- With a prime partition count at most `2^32`, a cached-permutation map in
the reachable state, a non-empty node set and no empty-string member,
`populateLookup` succeeds (no panic: every cursor finds an empty slot before
overrunning its permutation). -/
theorem populateLookup_success (m : M)
    (hprime : Nat.Prime m.numPartitions) (hbound : m.numPartitions ≤ 2 ^ 32)
    (hperms : PermsOK m) (hne : m.nodes ≠ []) (hnoempty : "" ∉ m.nodes) :
    ∃ L, populateLookup m = some L := by
  have hpos : 0 < m.numPartitions := hprime.pos
  have hlen0 : m.nodes.length ≠ 0 := fun hc => hne (List.eq_nil_of_length_eq_zero hc)
  rw [populateLookup, if_neg hlen0]
  apply populateLoop_total m.numPartitions (mapGet m.permutations)
    (m.numPartitions + 1) (m.nodes.map fun nd => (nd, 0))
    (List.replicate m.numPartitions "") 0
  · intro hc
    have := congrArg List.length hc
    simp only [List.length_map, List.length_nil] at this
    exact hlen0 this
  · rw [pairs_names]
    intro x hx hc
    rw [hc] at hx
    exact hnoempty hx
  · rw [pairs_names]
    intro x hx
    rw [hperms x hx]
    exact genPerm_length m x
  · rw [pairs_names]
    intro x hx
    rw [hperms x hx]
    exact genPerm_elems_lt m x hpos
  · rw [pairs_names]
    intro x hx
    rw [hperms x hx]
    exact genPerm_mem m x hprime hbound
  · exact List.length_replicate m.numPartitions ""
  · rw [List.count_replicate]
    simp
  · omega
  · intro pr hpr j hj hjlt
    obtain ⟨nd, hnd, hpre⟩ := List.mem_map.mp hpr
    rw [← hpre] at hjlt
    omega
  · omega

/-- Round-robin counting, at the `populateLookup` level: on success the
build consists of `t1` full sweeps of the node list plus `k` final claims,
and every node's tabled count is its per-sweep occurrence count times
`t1`, plus one more if it is among the first `k` nodes. -/
theorem populateLookup_count (m : M) (L1 : List Node)
    (h : populateLookup m = some L1)
    (hperms : PermsOK m) (hpos : 0 < m.numPartitions) :
    ∃ t1 k, 1 ≤ k ∧ k ≤ m.nodes.length ∧
      m.numPartitions = m.nodes.length * t1 + k ∧
      L1.length = m.numPartitions ∧
      (∀ x, x ≠ "" → L1.count x =
        (m.nodes.count x) * t1 + ((m.nodes.take k).count x)) ∧
      L1.count "" = (m.nodes.count "") * t1 + ((m.nodes.take k).count "") ∧
      (∀ e ∈ L1, e = "" ∨ e ∈ m.nodes) := by
  by_cases hlen0 : m.nodes.length = 0
  · rw [populateLookup, if_pos hlen0] at h
    exact absurd h (by simp)
  · rw [populateLookup, if_neg hlen0] at h
    obtain ⟨t1, k, hj1, hj2, hj3, hj4, hj5, hj6, hj7⟩ :=
      populateLoop_count m.numPartitions (mapGet m.permutations)
        (m.numPartitions + 1) (m.nodes.map fun nd => (nd, 0))
        (List.replicate m.numPartitions "") 0 0 L1 h
        (by rw [pairs_names]
            intro x hx
            rw [hperms x hx]
            exact genPerm_elems_lt m x hpos)
        (List.length_replicate m.numPartitions "") hpos
        (by simp)
        (by intro x hx
            rw [List.count_replicate]
            simp [Ne.symm hx])
        (by rw [List.count_replicate]
            simp)
        (by intro e he
            rw [List.eq_of_mem_replicate he]
            exact Or.inl rfl)
    rw [pairs_names] at hj5 hj6 hj7
    rw [List.length_map] at hj2 hj3
    exact ⟨t1, k, hj1, hj2, hj3, hj4, hj5, hj6, hj7⟩

/-! ### The table builder: termination with the empty string as a member -/

/-- Table slots read through `getD` out of a fresh `make([]string, p)`
table all hold the sentinel. -/
theorem getD_replicate_empty (p c : Nat) :
    (List.replicate p ("" : Node)).getD c "" = "" := by
  rcases Nat.lt_or_ge c p with h | h
  · rw [List.getD_eq_getElem _ _ (by simpa using h), List.getElem_replicate]
  · exact List.getD_eq_default _ _ (by simpa using h)

/-- Setting a table slot that a permutation segment never mentions leaves
the segment's empty-slot count unchanged. -/
theorem emptyCount_set_not_mem (L : List Node) (c : Nat) (v : Node) :
    ∀ l : List Nat, c ∉ l → emptyCount (L.set c v) l = emptyCount L l := by
  intro l hc
  apply List.countP_congr
  intro e he
  rw [getD_set_ne L c v e (fun hce => hc (hce ▸ he))]

/-- Setting one table slot lowers the empty-slot count of a duplicate-free
permutation segment by at most one. -/
theorem emptyCount_set_ge : ∀ (l : List Nat), l.Nodup →
    ∀ (L : List Node) (c : Nat) (v : Node),
    emptyCount L l ≤ emptyCount (L.set c v) l + 1 := by
  intro l
  induction l with
  | nil =>
    intro _ L c v
    simp [emptyCount]
  | cons a t ih =>
    intro hnd L c v
    rw [List.nodup_cons] at hnd
    obtain ⟨hat, hndt⟩ := hnd
    simp only [emptyCount, List.countP_cons] at *
    by_cases hac : a = c
    · subst hac
      have h3 := emptyCount_set_not_mem L a v t hat
      simp only [emptyCount] at h3
      rw [h3]
      have h1 : (if (decide (L.getD a "" = "")) = true then 1 else 0) ≤ 1 := by
        split <;> omega
      omega
    · rw [getD_set_ne L c v a (fun h => hac h.symm)]
      have h2 := ih hndt L c v
      omega

/-- Slots skipped by a scan are non-empty, so dropping them from the
cursor segment keeps the empty-slot count. -/
theorem emptyCount_drop_of_skipped (perm : List Nat) (L : List Node) (cur cur1 : Nat)
    (hcc : cur ≤ cur1) (hc1 : cur1 ≤ perm.length)
    (hskip : ∀ j, (hj : j < perm.length) → cur ≤ j → j < cur1 → L.getD perm[j] "" ≠ "") :
    emptyCount L (perm.drop cur) = emptyCount L (perm.drop cur1) := by
  have h1 : (perm.drop cur).drop (cur1 - cur) = perm.drop cur1 := by
    rw [List.drop_drop]
    congr 1
    omega
  have hsplit : (perm.drop cur).take (cur1 - cur) ++ perm.drop cur1 = perm.drop cur := by
    rw [← h1]
    exact List.take_append_drop _ _
  rw [← hsplit, emptyCount, emptyCount, List.countP_append]
  have hz : ((perm.drop cur).take (cur1 - cur)).countP
      (fun c => decide (L.getD c "" = "")) = 0 := by
    rw [List.countP_eq_zero]
    intro a ha
    obtain ⟨i, hi, hie⟩ := List.mem_iff_getElem.mp ha
    have hi2 : i < cur1 - cur := by
      rw [List.length_take] at hi
      omega
    have hil : i < (perm.drop cur).length := by
      rw [List.length_take, List.length_drop] at hi
      rw [List.length_drop]
      omega
    have hi3 : cur + i < perm.length := by
      rw [List.length_drop] at hil
      omega
    have hav : a = perm[cur + i] := by
      rw [← hie]
      rw [List.getElem_take]
      rw [List.getElem_drop]
    rw [hav]
    simp only [decide_eq_true_eq]
    exact hskip (cur + i) hi3 (by omega) (by omega)
  omega

/-- One sweep cannot panic from any state where, for every listed node,
the empty slots at or past its cursor (counted inside its own permutation)
together with the filled counter reach `p`: every scan then finds an empty
slot before its cursor can overrun.  Duplicate-free full-length
permutations suffice — the node set may contain the empty string, whose
claims leave the table unchanged.  The sweep preserves the invariant and
never lowers `emptyCount l + n` for any duplicate-free slot list `l`. -/
theorem passStep_progress_gen (p : Nat) (perms : Node → List Nat) :
    ∀ (pairs : List (Node × Nat)) (L : List Node) (n : Nat),
    (∀ x ∈ pairs.map Prod.fst, (perms x).length = p) →
    (∀ x ∈ pairs.map Prod.fst, (perms x).Nodup) →
    L.length = p →
    n < p →
    (∀ pr ∈ pairs, p ≤ emptyCount L ((perms pr.1).drop pr.2) + n) →
    ∃ pairs1 L1 n1 done, passStep p perms pairs L n = some (pairs1, L1, n1, done) ∧
      pairs1.map Prod.fst = pairs.map Prod.fst ∧
      L1.length = p ∧ n1 ≤ p ∧
      (done = true ↔ n1 = p) ∧
      (done = false → n1 = n + pairs.length) ∧
      (∀ l : List Nat, l.Nodup → emptyCount L l + n ≤ emptyCount L1 l + n1) ∧
      (∀ pr ∈ pairs1, p ≤ emptyCount L1 ((perms pr.1).drop pr.2) + n1) := by
  intro pairs
  induction pairs with
  | nil =>
    intro L n hlen hnd hL hn hinv
    refine ⟨[], L, n, false, by rw [passStep], rfl, hL, by omega, ?_,
      fun _ => by simp, fun l _ => le_refl _, fun pr hpr => absurd hpr (by simp)⟩
    simp
    omega
  | cons pr rest ih =>
    intro L n hlen hnd hL hn hinv
    obtain ⟨node, cur⟩ := pr
    have hnodemem : node ∈ ((node, cur) :: rest).map Prod.fst := by simp
    have hndnode : (perms node).Nodup := hnd node hnodemem
    have hinvhead : p ≤ emptyCount L ((perms node).drop cur) + n :=
      hinv (node, cur) (by simp)
    -- an empty slot sits in this node permutation at or past the cursor
    have hpos : 0 < ((perms node).drop cur).countP
        (fun c => decide (L.getD c "" = "")) := by
      have h0 : p ≤ emptyCount L ((perms node).drop cur) + n := hinvhead
      rw [emptyCount] at h0
      omega
    obtain ⟨e, he, hpe⟩ := List.countP_pos_iff.mp hpos
    have hpe2 : L.getD e "" = "" := of_decide_eq_true hpe
    obtain ⟨i, hi, hie⟩ := List.mem_iff_getElem.mp he
    have hilen : cur + i < (perms node).length := by
      rw [List.length_drop] at hi
      omega
    have hev : (perms node)[cur + i] = e := by
      rw [← hie, List.getElem_drop]
    have hempty_slot : L.getD (perms node)[cur + i] "" = "" := by
      rw [hev]
      exact hpe2
    have hsome := scanSlot_isSome ((perms node).length - cur) (perms node) L cur
      (le_refl _) ⟨cur + i, by omega, hilen, hempty_slot⟩
    cases hscan : scanSlot (perms node) L cur with
    | none => rw [hscan] at hsome; exact absurd hsome (by simp)
    | some r =>
      obtain ⟨c, cur1⟩ := r
      obtain ⟨hcc, hcur1, hcval, hcempty, hskip⟩ :=
        scanSlot_sound ((perms node).length - cur) (perms node) L cur c cur1
          (le_refl _) hscan
      have hdropcons : (perms node).drop cur1 = c :: (perms node).drop (cur1 + 1) := by
        rw [List.drop_eq_getElem_cons hcur1, hcval]
      have hnotmem : c ∉ (perms node).drop (cur1 + 1) := by
        have h1 : ((perms node).drop cur1).Nodup :=
          List.Nodup.sublist (List.drop_sublist cur1 (perms node)) hndnode
        rw [hdropcons, List.nodup_cons] at h1
        exact h1.1
      have hheadeq : emptyCount (L.set c node) ((perms node).drop (cur1 + 1)) + 1 =
          emptyCount L ((perms node).drop cur) := by
        rw [emptyCount_drop_of_skipped (perms node) L cur cur1 hcc (by omega) hskip,
          hdropcons, emptyCount_set_not_mem L c node _ hnotmem]
        simp only [emptyCount]
        rw [List.countP_cons_of_pos _ _ (by simpa using hcempty)]
      have hsetlen : (L.set c node).length = p := by rw [List.length_set]; exact hL
      have hstep : ∀ l : List Nat, l.Nodup →
          emptyCount L l + n ≤ emptyCount (L.set c node) l + (n + 1) := by
        intro l hl
        have := emptyCount_set_ge l hl L c node
        omega
      have hrestinv : ∀ pr2 ∈ rest,
          p ≤ emptyCount (L.set c node) ((perms pr2.1).drop pr2.2) + (n + 1) := by
        intro pr2 hpr2
        have h1 := hinv pr2 (List.mem_cons_of_mem _ hpr2)
        have h2 : ((perms pr2.1).drop pr2.2).Nodup :=
          List.Nodup.sublist (List.drop_sublist pr2.2 (perms pr2.1))
            (hnd pr2.1 (List.mem_map.mpr ⟨pr2, List.mem_cons_of_mem _ hpr2, rfl⟩))
        have h3 := hstep ((perms pr2.1).drop pr2.2) h2
        omega
      by_cases hdone : n + 1 = p
      · refine ⟨(node, cur1 + 1) :: rest, L.set c node, n + 1, true, ?_, rfl, hsetlen,
          by omega, by simp [hdone], by simp, hstep, ?_⟩
        · rw [passStep]
          simp only [hscan]
          rw [if_pos hdone]
        · intro pr2 hpr2
          omega
      · obtain ⟨pairs2, L2, n2, done2, hp1, hp2, hp3, hp4, hp5, hp6, hp7, hp8⟩ :=
          ih (L.set c node) (n + 1)
            (fun x hx => hlen x (by simp [hx]))
            (fun x hx => hnd x (by simp [hx]))
            hsetlen (by omega) hrestinv
        refine ⟨(node, cur1 + 1) :: pairs2, L2, n2, done2, ?_, ?_, hp3, hp4, hp5, ?_,
          ?_, ?_⟩
        · rw [passStep]
          simp only [hscan, hp1]
          rw [if_neg hdone]
        · simp [hp2]
        · intro hd
          rw [hp6 hd]
          simp
          omega
        · intro l hl
          have h4 := hstep l hl
          have h5 := hp7 l hl
          omega
        · intro pr2 hpr2
          rcases List.mem_cons.mp hpr2 with he2 | he2
          · subst he2
            show p ≤ emptyCount L2 ((perms node).drop (cur1 + 1)) + n2
            have h6 : ((perms node).drop (cur1 + 1)).Nodup :=
              List.Nodup.sublist (List.drop_sublist (cur1 + 1) (perms node)) hndnode
            have h7 := hp7 ((perms node).drop (cur1 + 1)) h6
            omega
          · exact hp8 pr2 he2

/-- The loop terminates successfully (no panic, no fuel exhaustion) from
any state satisfying the per-node empty-slot invariant, given
`p ≤ fuel + n` — whether or not the empty string is among the nodes. -/
theorem populateLoop_total_gen (p : Nat) (perms : Node → List Nat) :
    ∀ (fuel : Nat) (pairs : List (Node × Nat)) (L : List Node) (n : Nat),
    pairs ≠ [] →
    (∀ x ∈ pairs.map Prod.fst, (perms x).length = p) →
    (∀ x ∈ pairs.map Prod.fst, (perms x).Nodup) →
    L.length = p → n < p →
    (∀ pr ∈ pairs, p ≤ emptyCount L ((perms pr.1).drop pr.2) + n) →
    p ≤ fuel + n →
    ∃ L1, populateLoop p perms fuel pairs L n = some L1 := by
  intro fuel
  induction fuel with
  | zero =>
    intro pairs L n hne0 hlen hnd hL hn hinv hfuel
    omega
  | succ fuel ih =>
    intro pairs L n hne0 hlen hnd hL hn hinv hfuel
    obtain ⟨pairs1, L2, n2, done, hpass, hp2, hp3, hp4, hp5, hp6, hp7, hp8⟩ :=
      passStep_progress_gen p perms pairs L n hlen hnd hL hn hinv
    rw [populateLoop]
    simp only [hpass]
    cases done with
    | true =>
      rw [if_pos rfl]
      exact ⟨L2, rfl⟩
    | false =>
      rw [if_neg (by simp)]
      have hn2 : n2 < p := by
        have := hp5
        simp only [Bool.false_eq_true, false_iff] at this
        omega
      have hne1 : pairs1 ≠ [] := by
        intro hcontra
        rw [hcontra] at hp2
        simp only [List.map_nil] at hp2
        have := congrArg List.length hp2
        simp only [List.length_nil, List.length_map] at this
        exact hne0 (List.eq_nil_of_length_eq_zero this.symm)
      apply ih pairs1 L2 n2 hne1
        (by rw [hp2]; exact hlen) (by rw [hp2]; exact hnd)
        hp3 hn2 hp8
      have hlp : 1 ≤ pairs.length := by
        cases pairs with
        | nil => exact absurd rfl hne0
        | cons a l => simp
      rw [hp6 rfl]
      omega

/-- With a prime partition count at most `2^32`, a cached-permutation map
in the reachable state and a non-empty node set, `populateLookup` succeeds
— even when the empty string is among the members: a slot claimed by the
empty-string node keeps reading as unfilled, yet every unfilled slot it
has never claimed lies at or past its own cursor, so no scan ever
overruns its permutation. -/
theorem populateLookup_success_gen (m : M)
    (hprime : Nat.Prime m.numPartitions) (hbound : m.numPartitions ≤ 2 ^ 32)
    (hperms : PermsOK m) (hne : m.nodes ≠ []) :
    ∃ L, populateLookup m = some L := by
  have hpos : 0 < m.numPartitions := hprime.pos
  have hlen0 : m.nodes.length ≠ 0 := fun hc => hne (List.eq_nil_of_length_eq_zero hc)
  rw [populateLookup, if_neg hlen0]
  apply populateLoop_total_gen m.numPartitions (mapGet m.permutations)
    (m.numPartitions + 1) (m.nodes.map fun nd => (nd, 0))
    (List.replicate m.numPartitions "") 0
  · intro hc
    have := congrArg List.length hc
    simp only [List.length_map, List.length_nil] at this
    exact hlen0 this
  · rw [pairs_names]
    intro x hx
    rw [hperms x hx]
    exact genPerm_length m x
  · rw [pairs_names]
    intro x hx
    rw [hperms x hx]
    exact genPerm_nodup m x hprime hbound
  · exact List.length_replicate m.numPartitions ""
  · exact hpos
  · intro pr hpr
    obtain ⟨nd, hndm, hpre⟩ := List.mem_map.mp hpr
    subst hpre
    show m.numPartitions ≤ emptyCount (List.replicate m.numPartitions "")
      ((mapGet m.permutations nd).drop 0) + 0
    rw [List.drop_zero, hperms nd hndm]
    have hfull : emptyCount (List.replicate m.numPartitions "")
        (generatePermutationsForNode m nd) =
        (generatePermutationsForNode m nd).length := by
      rw [emptyCount, List.countP_eq_length]
      intro a ha
      simp only [decide_eq_true_eq]
      exact getD_replicate_empty _ _
    rw [hfull, genPerm_length m nd]
    omega
  · omega

/-! ### Claims C1, C6: table coverage and balance -/

/-- C1 counterexample: an instance whose non-empty NodeSet contains the
empty string builds a table with unassigned slots.  `NewMaglev(["", "a"], 3)`
constructs (the build completes), yet slot 1 of the table is left at the
empty-string sentinel — not every partition got an owner. -/
theorem claim_C1_cex :
    NewMaglev ["", "a"] 3 hash0 hash0 = some (Except.ok mZA) ∧
    mZA.nodes ≠ [] ∧ 1 ≤ mZA.nodes.length ∧ mZA.nodes.length ≤ mZA.numPartitions ∧
    mZA.lookup.getD 1 "" = "" := by
  exact ⟨by rfl, by simp [mZA], by simp [mZA], by simp [mZA], by rfl⟩

/-- C1 (amended): for every instance whose non-empty NodeSet (size in
`[1, numPartitions]`) does not contain the empty string, with a prime
partition count at most `2^32` (so permutations are true permutations, see
C2), the table build succeeds and every partition index is assigned exactly
one owning node — no slot is left at the empty sentinel. -/
theorem claim_C1 (m : M)
    (hprime : Nat.Prime m.numPartitions) (hbound : m.numPartitions ≤ 2 ^ 32)
    (hperms : PermsOK m) (hne : m.nodes ≠ [])
    (hsize : m.nodes.length ≤ m.numPartitions) (hnoempty : "" ∉ m.nodes) :
    ∃ L, populateLookup m = some L ∧ L.length = m.numPartitions ∧
      ∀ c, c < m.numPartitions → L.getD c "" ∈ m.nodes := by
  obtain ⟨L, hL⟩ := populateLookup_success m hprime hbound hperms hne hnoempty
  obtain ⟨t1, k, hj1, hj2, hj3, hj4, hj5, hj6, hj7⟩ :=
    populateLookup_count m L hL hperms hprime.pos
  refine ⟨L, hL, hj4, ?_⟩
  intro c hc
  have hcL : c < L.length := by omega
  rw [List.getD_eq_getElem L "" hcL]
  have hcount0 : L.count "" = 0 := by
    rw [hj6, List.count_eq_zero_of_not_mem hnoempty,
      List.count_eq_zero_of_not_mem
        (fun hmem => hnoempty ((List.take_sublist k m.nodes).mem hmem))]
    omega
  rcases hj7 L[c] (List.getElem_mem hcL) with he | he
  · exfalso
    have : ("" : Node) ∈ L := by
      rw [← he]
      exact List.getElem_mem hcL
    have := List.count_pos_iff.mpr this
    omega
  · exact he

/-- C1 witness: the two-node 3-partition instance `mAB` builds a fully
assigned table. -/
theorem claim_C1_witness :
    ∃ L, populateLookup mAB = some L ∧ L.length = mAB.numPartitions ∧
      ∀ c, c < mAB.numPartitions → L.getD c "" ∈ mAB.nodes :=
  claim_C1 mAB (by norm_num [mAB]) (by norm_num [mAB])
    (by intro node hnd
        simp only [mAB, List.mem_cons, List.not_mem_nil, or_false] at hnd
        rcases hnd with h | h
        · subst h
          rfl
        · subst h
          rfl)
    (by decide) (by decide) (by decide)

/-- C6: on any completed build over a duplicate-free node set of size
`N ∈ [1, numPartitions]`, every node owns either `⌊p/N⌋` or `⌈p/N⌉`
partitions, and any two nodes' counts differ by at most 1.  (This holds
even when the empty string is a member: its "owned" slots are the ones
left at the sentinel.) -/
theorem claim_C6 (m : M) (L : List Node)
    (h : populateLookup m = some L) (hperms : PermsOK m)
    (hnodup : m.nodes.Nodup) (hpos : 0 < m.numPartitions)
    (hsize1 : 1 ≤ m.nodes.length) (hsize2 : m.nodes.length ≤ m.numPartitions) :
    ∀ x ∈ m.nodes, ∀ y ∈ m.nodes,
      (L.count x = m.numPartitions / m.nodes.length ∨
       L.count x = (m.numPartitions + m.nodes.length - 1) / m.nodes.length) ∧
      L.count x ≤ L.count y + 1 := by
  obtain ⟨t1, k, hj1, hj2, hj3, hj4, hj5, hj6, hj7⟩ :=
    populateLookup_count m L h hperms hpos
  have hcx : ∀ x ∈ m.nodes, L.count x = t1 + (m.nodes.take k).count x ∧
      (m.nodes.take k).count x ≤ 1 := by
    intro x hx
    have h1 : m.nodes.count x = 1 := List.count_eq_one_of_mem hnodup hx
    have h2 : (m.nodes.take k).count x ≤ 1 := by
      have := List.Sublist.count_le (List.take_sublist k m.nodes) x
      omega
    by_cases hxe : x = ""
    · subst hxe
      rw [hj6, h1, one_mul]
      exact ⟨rfl, h2⟩
    · rw [hj5 x hxe, h1, one_mul]
      exact ⟨rfl, h2⟩
  have hkfull : k = m.nodes.length →
      ∀ x ∈ m.nodes, (m.nodes.take k).count x = 1 := by
    intro hk x hx
    rw [hk, List.take_length]
    exact List.count_eq_one_of_mem hnodup hx
  have hfloor : m.numPartitions / m.nodes.length = t1 + k / m.nodes.length := by
    rw [hj3, Nat.mul_add_div (by omega)]
  have hceil : (m.numPartitions + m.nodes.length - 1) / m.nodes.length = t1 + 1 := by
    have he : m.numPartitions + m.nodes.length - 1 =
        m.nodes.length * t1 + (k + m.nodes.length - 1) := by omega
    rw [he, Nat.mul_add_div (by omega)]
    have hd : (k + m.nodes.length - 1) / m.nodes.length = 1 := by
      apply Nat.div_eq_of_lt_le
      · omega
      · have : (1 + 1) * m.nodes.length = m.nodes.length + m.nodes.length := by ring
        omega
    rw [hd]
  intro x hx y hy
  obtain ⟨hcx1, hcx2⟩ := hcx x hx
  obtain ⟨hcy1, hcy2⟩ := hcx y hy
  constructor
  · by_cases hfull : (m.nodes.take k).count x = 1
    · right
      rw [hceil]
      omega
    · left
      have hx0 : (m.nodes.take k).count x = 0 := by omega
      have hklt : k < m.nodes.length := by
        rcases Nat.lt_or_ge k m.nodes.length with hk | hk
        · exact hk
        · exfalso
          have := hkfull (by omega) x hx
          omega
      rw [hfloor, Nat.div_eq_of_lt hklt]
      omega
  · omega

/-- C6 witness: on the instance `mAB` (`p = 3`, nodes `{"a","b"}`) node
`"a"` owns 2 = ceil(3/2) partitions, node `"b"` owns 1 = floor(3/2), and
the two counts differ by 1. -/
theorem claim_C6_witness :
    ((List.count "a" mAB.lookup = mAB.numPartitions / mAB.nodes.length ∨
      List.count "a" mAB.lookup =
        (mAB.numPartitions + mAB.nodes.length - 1) / mAB.nodes.length) ∧
     List.count "a" mAB.lookup ≤ List.count "b" mAB.lookup + 1) ∧
    ((List.count "b" mAB.lookup = mAB.numPartitions / mAB.nodes.length ∨
      List.count "b" mAB.lookup =
        (mAB.numPartitions + mAB.nodes.length - 1) / mAB.nodes.length) ∧
     List.count "b" mAB.lookup ≤ List.count "a" mAB.lookup + 1) := by
  have h := claim_C6 mAB mAB.lookup (by rfl)
    (by intro node hnd
        simp only [mAB, List.mem_cons, List.not_mem_nil, or_false] at hnd
        rcases hnd with h | h
        · subst h
          rfl
        · subst h
          rfl)
    (by decide) (by decide) (by decide) (by decide)
  exact ⟨h "a" (by decide) "b" (by decide), h "b" (by decide) "a" (by decide)⟩

/-! ### Claims C7, C10 -/

theorem mapGet_mapSet : ∀ (ps : List (Node × List Nat)) (k : Node) (v : List Nat) (k2 : Node),
    mapGet (mapSet ps k v) k2 = if k2 = k then v else mapGet ps k2 := by
  intro ps k v
  induction ps with
  | nil =>
    intro k2
    by_cases h : k2 = k
    · subst h
      simp [mapGet, mapSet, List.find?]
    · simp [mapGet, mapSet, List.find?, Ne.symm h, h]
  | cons e rest ih =>
    intro k2
    by_cases hek : e.1 = k
    · rw [mapSet, if_pos hek]
      by_cases h : k2 = k
      · subst h
        simp [mapGet, List.find?]
      · simp only [mapGet, List.find?, if_neg h]
        have h1 : (decide (k = k2)) = false := by simp [Ne.symm h]
        have h2 : (decide (e.1 = k2)) = false := by
          rw [hek]
          simp [Ne.symm h]
        rw [h1, h2]
    · rw [mapSet, if_neg hek]
      by_cases h : k2 = k
      · subst h
        simp only [if_pos rfl]
        have h2 : (decide (e.1 = k2)) = false := by simp [hek]
        simp only [mapGet, List.find?, h2]
        have := ih k2
        rw [if_pos rfl] at this
        simpa [mapGet] using this
      · simp only [if_neg h]
        simp only [mapGet, List.find?]
        cases he2 : decide (e.1 = k2) with
        | true => rfl
        | false =>
          have := ih k2
          rw [if_neg h] at this
          simpa [mapGet] using this

/-- Inserting at a position that respects the order keeps the list strictly
sorted. -/
theorem pairwise_insertIdx :
    ∀ (a : List Node) (pos : Nat) (x : Node),
    pos ≤ a.length →
    a.Pairwise (fun s t => strLt s t = true) →
    (∀ h, (hh : h < a.length) → h < pos → strLt (a.get ⟨h, hh⟩) x = true) →
    (∀ h, (hh : h < a.length) → pos ≤ h → strLt x (a.get ⟨h, hh⟩) = true) →
    (a.insertIdx pos x).Pairwise (fun s t => strLt s t = true) := by
  intro a
  induction a with
  | nil =>
    intro pos x hpos _ _ _
    have : pos = 0 := by simpa using hpos
    subst this
    simp
  | cons hd tl ih =>
    intro pos x hpos hsorted hbefore hafter
    cases pos with
    | zero =>
      rw [List.insertIdx_zero]
      rw [List.pairwise_cons]
      refine ⟨?_, hsorted⟩
      intro y hy
      obtain ⟨i, hi, hie⟩ := List.mem_iff_getElem.mp hy
      have := hafter i hi (Nat.zero_le i)
      simp only [List.get_eq_getElem] at this
      rw [hie] at this
      exact this
    | succ n =>
      rw [List.insertIdx_succ_cons]
      rw [List.pairwise_cons] at hsorted
      obtain ⟨hhd, htl⟩ := hsorted
      rw [List.pairwise_cons]
      constructor
      · intro y hy
        rcases (List.mem_insertIdx (by simpa using hpos)).mp hy with he | he
        · subst he
          have := hbefore 0 (by simp) (by omega)
          simpa using this
        · exact hhd y he
      · apply ih n x (by simpa using hpos) htl
        · intro h hh hlt
          have := hbefore (h + 1) (by simpa using hh) (by omega)
          simpa using this
        · intro h hh hge
          have := hafter (h + 1) (by simpa using hh) (by omega)
          simpa using this

/-- With some member at or after the probe, the search position is in
range. -/
theorem SearchStrings_lt_length (a : List Node) (x : Node)
    (hsorted : a.Pairwise (fun s t => strLt s t = true))
    (hrange : ∃ y ∈ a, strLe x y = true) :
    SearchStrings a x < a.length := by
  obtain ⟨hbefore, hat, hle⟩ := SearchStrings_spec a x hsorted
  obtain ⟨y, hy, hxy⟩ := hrange
  obtain ⟨iy, hiy, hyeq⟩ := List.mem_iff_getElem.mp hy
  by_contra hc
  have h1 := hbefore iy hiy (by omega)
  simp only [List.get_eq_getElem, hyeq] at h1
  simp only [strLe, Bool.not_eq_true'] at hxy
  rw [h1] at hxy
  exact absurd hxy (by simp)

/-- On a sorted list that contains the probe, the search lands exactly on
it. -/
theorem SearchStrings_finds (a : List Node) (x : Node)
    (hsorted : a.Pairwise (fun s t => strLt s t = true))
    (hmem : x ∈ a) :
    ∃ (hp : SearchStrings a x < a.length), a.get ⟨SearchStrings a x, hp⟩ = x := by
  obtain ⟨hbefore, hat, hle⟩ := SearchStrings_spec a x hsorted
  obtain ⟨ix, hix, hxeq⟩ := List.mem_iff_getElem.mp hmem
  have hp : SearchStrings a x < a.length := by
    apply SearchStrings_lt_length a x hsorted
    refine ⟨x, hmem, ?_⟩
    simp [strLe, strLt_irrefl]
  refine ⟨hp, ?_⟩
  have hposle : SearchStrings a x ≤ ix := by
    by_contra hc
    have h1 := hbefore ix hix (by omega)
    simp only [List.get_eq_getElem, hxeq, strLt_irrefl] at h1
    exact absurd h1 (by simp)
  rcases Nat.eq_or_lt_of_le hposle with he | hl
  · subst he
    simpa using hxeq
  · exfalso
    have h1 := List.pairwise_iff_getElem.mp hsorted (SearchStrings a x) ix hp hix hl
    have h2 := hat (SearchStrings a x) hp (le_refl _)
    simp only [List.get_eq_getElem] at h2
    rw [hxeq] at h1
    rw [h1] at h2
    exact absurd h2 (by simp)

/-- Behaviour of `Add` on a single candidate, assembled from its two stages. -/
theorem Add_single (m m1 : M) (x : Node) (cnt : Nat) (lk : List Node)
    (hloop : addLoop m [x] 0 = some (m1, cnt))
    (hpop : populateLookup m1 = some lk)
    (hcap1 : ¬ m1.nodes.length > m1.numPartitions) :
    Add m [x] = some ({ m1 with lookup := lk }, cnt, none) := by
  rw [Add]
  simp only [hloop, hpop]
  rw [if_neg hcap1]

/-- Behaviour of `Add` on a node already present in a sorted, self-consistent instance
returns the instance unchanged with count 0 and no error. -/
theorem Add_existing (m1 : M) (x : Node)
    (hsorted1 : m1.nodes.Pairwise (fun s t => strLt s t = true))
    (hmem : x ∈ m1.nodes)
    (hpop : populateLookup m1 = some m1.lookup)
    (hcap1 : ¬ m1.nodes.length > m1.numPartitions) :
    Add m1 [x] = some (m1, 0, none) := by
  obtain ⟨hp2, hfind⟩ := SearchStrings_finds m1.nodes x hsorted1 hmem
  have hsome2 : m1.nodes[SearchStrings m1.nodes x]? = some x := by
    rw [List.getElem?_eq_getElem hp2]
    simp only [List.get_eq_getElem] at hfind
    rw [hfind]
  rw [Add, addLoop]
  simp only [hsome2]
  rw [if_neg (by simp), addLoop]
  simp only [hpop]
  rw [if_neg hcap1]

/-- C7 counterexample: twice-adding a fresh node to a live instance does
not always report `(1, no error)` on the first call.  On `mA = {"a"}`
(3 partitions), `Add("b")` panics outright (the probe reads past the end);
on the full instance `mCD = {"a","c"}` (2 partitions), `Add("b")` reports 1
added but a capacity error. -/
theorem claim_C7_cex :
    (mA.nodes ≠ [] ∧ "b" ∉ mA.nodes ∧ Add mA ["b"] = none) ∧
    (mCD.nodes ≠ [] ∧ "b" ∉ mCD.nodes ∧
      Add mCD ["b"] = some (mCDX, 1, some "number of nodes exceed number of partitions")) := by
  refine ⟨⟨by simp [mA], by simp [mA], by rfl⟩, by simp [mCD], by simp [mCD], by rfl⟩

/-- C7 (amended): adding the same fresh node twice reports `(1, no error)`
then `(0, no error)` and leaves the entire instance (table included)
unchanged by the second call — provided the instance is sorted and
non-empty, some existing member sorts at or after the fresh node (no probe
panic, see C9), the new count stays within `numPartitions` (no capacity
error), and the prime partition count is at most `2^32` (true
permutations, see C2).  The node set may contain the empty string, and
the fresh node may itself be the empty string: the rebuild still
completes. -/
theorem claim_C7 (m : M) (x : Node)
    (hprime : Nat.Prime m.numPartitions) (hbound : m.numPartitions ≤ 2 ^ 32)
    (hperms : PermsOK m)
    (hsorted : m.nodes.Pairwise (fun s t => strLt s t = true))
    (hne : m.nodes ≠ [])
    (hxnotmem : x ∉ m.nodes)
    (hcap : m.nodes.length + 1 ≤ m.numPartitions)
    (hrange : ∃ y ∈ m.nodes, strLe x y = true) :
    ∃ m1, Add m [x] = some (m1, 1, none) ∧ Add m1 [x] = some (m1, 0, none) := by
  obtain ⟨hbefore, hat, hle⟩ := SearchStrings_spec m.nodes x hsorted
  have hpos : SearchStrings m.nodes x < m.nodes.length :=
    SearchStrings_lt_length m.nodes x hsorted hrange
  have hsome : m.nodes[SearchStrings m.nodes x]? =
      some m.nodes[SearchStrings m.nodes x] := List.getElem?_eq_getElem hpos
  have hv : ¬ m.nodes[SearchStrings m.nodes x] = x := by
    intro he
    exact hxnotmem (he ▸ List.getElem_mem hpos)
  -- the state after the insertion, before the rebuild
  have hloop1 : addLoop m [x] 0 = some (addOne m x, 1) := by
    rw [addLoop]
    simp only [hsome]
    rw [if_pos (by simpa using hv), addLoop]
    rfl
  have hinslen : (m.nodes.insertIdx (SearchStrings m.nodes x) x).length =
      m.nodes.length + 1 := List.length_insertIdx _ _ (by omega)
  have hinsmem : ∀ nd, nd ∈ m.nodes.insertIdx (SearchStrings m.nodes x) x ↔
      nd = x ∨ nd ∈ m.nodes := fun nd => List.mem_insertIdx (by omega)
  have hperms1 : PermsOK (addOne m x) := by
    intro nd hnd
    show mapGet (mapSet m.permutations x (generatePermutationsForNode m x)) nd = _
    rw [mapGet_mapSet]
    rcases (hinsmem nd).mp hnd with he | he
    · subst he
      rw [if_pos rfl]
      rfl
    · have hnex : nd ≠ x := fun hc => hxnotmem (hc ▸ he)
      rw [if_neg hnex]
      exact hperms nd he
  obtain ⟨lk, hlk⟩ := populateLookup_success_gen (addOne m x) hprime hbound hperms1
    (by intro hc
        have h2 : m.nodes.insertIdx (SearchStrings m.nodes x) x = [] := hc
        have h3 := congrArg List.length h2
        rw [hinslen] at h3
        simp at h3)
  refine ⟨{ addOne m x with lookup := lk }, ?_, ?_⟩
  · exact Add_single m (addOne m x) x 1 lk hloop1 hlk
      (by show ¬ (m.nodes.insertIdx (SearchStrings m.nodes x) x).length > m.numPartitions
          rw [hinslen]
          omega)
  · -- the second call: the probe finds x, nothing changes, the same table is rebuilt
    have hsorted1 : (m.nodes.insertIdx (SearchStrings m.nodes x) x).Pairwise
        (fun s t => strLt s t = true) := by
      apply pairwise_insertIdx m.nodes (SearchStrings m.nodes x) x (by omega) hsorted
      · intro h hh hlt
        exact hbefore h hh hlt
      · intro h hh hge
        have h1 := hat h hh hge
        have h2 : m.nodes.get ⟨h, hh⟩ ≠ x := by
          intro hc
          exact hxnotmem (hc ▸ (List.get_mem m.nodes h hh))
        cases he : strLt x (m.nodes.get ⟨h, hh⟩) with
        | true => rfl
        | false => exact absurd (strLt_connex he h1) (Ne.symm h2)
    exact Add_existing { addOne m x with lookup := lk } x hsorted1
      ((hinsmem x).mpr (Or.inl rfl)) hlk
      (by show ¬ (m.nodes.insertIdx (SearchStrings m.nodes x) x).length > m.numPartitions
          rw [hinslen]
          omega)

/-- C7 witness: on `mZA = {"", "a"}` (3 partitions — the empty string is a
member), adding `"A"` twice reports `(1, no error)` then `(0, no error)`
with the instance unchanged the second time. -/
theorem claim_C7_witness :
    ∃ m1, Add mZA ["A"] = some (m1, 1, none) ∧ Add m1 ["A"] = some (m1, 0, none) :=
  claim_C7 mZA "A" (by norm_num [mZA]) (by norm_num [mZA])
    (by intro node hnd
        simp only [mZA, List.mem_cons, List.not_mem_nil, or_false] at hnd
        rcases hnd with h | h
        · subst h
          rfl
        · subst h
          rfl)
    (by simp [mZA]; rfl) (by decide) (by decide)
    (by decide) ⟨"a", by simp [mZA], by rfl⟩

/-- C10: the builder uses the empty string as its unfilled sentinel, so an
instance whose node set contains `""` breaks the exactly-one-owner
invariant.  On `NewMaglev(["", "a"], 3)`: a first sweep step has `""` claim
slot 0 (the counter ticks to 1) while the table still reads unfilled, the
full sweep then lets `"a"` claim the same slot again (counter 2), the build
returns with the counter at `numPartitions` while two slots remain at the
sentinel, and `Lookup` returns `""` although the node set is non-empty. -/
theorem claim_C10 :
    NewMaglev ["", "a"] 3 hash0 hash0 = some (Except.ok mZA) ∧
    mZA.nodes = ["", "a"] ∧ ("" : Node) ∈ mZA.nodes ∧
    passStep 3 (mapGet mZA.permutations) [("", 0)] ["", "", ""] 0 =
      some ([("", 1)], ["", "", ""], 1, false) ∧
    passStep 3 (mapGet mZA.permutations) [("", 0), ("a", 0)] ["", "", ""] 0 =
      some ([("", 1), ("a", 1)], ["a", "", ""], 2, false) ∧
    populateLookup mZA = some ["a", "", ""] ∧
    mZA.lookup.count "" = 2 ∧
    Lookup mZA 1 = some "" := by
  refine ⟨by rfl, by rfl, by simp [mZA], by rfl, by rfl, by rfl, by rfl, by rfl⟩

end Maglev
